import Mathlib

/-!
Verification development for the go2ts type-conversion engine.

The Go source (go2ts.go, func.go) walks a reflected type descriptor and
emits a TypeScript declaration string.  The embedding below mirrors the
source structure:

* `Ty` models `reflect.Type` descriptors: kind, declared name, element /
  field / parameter / return sub-descriptors, and the error-interface flag
  used by `Implements(errorType)`.  Identity comparison of descriptors is
  structural equality on `Ty`.
* `ConvState` models the mutable `Converter` tables (`types`,
  `paramNames`), plus a caller-owned component `user` standing for any
  state a caller closure captures.  `Hooks` carries `OnConvert` (a state
  transformer, since the Go hook may call `AddTypes`/`AddParamNames`) and
  `ConfigureFunc`.
* Each Go function has a Lean counterpart (`ConvertF` for `Convert`,
  `convertGo` for `convert`, `extractFuncGo` for `extractFunc`,
  `paramNameGo` for `paramName`, `convertFuncGo` for `convertFunc`,
  `extractStructGo`/`convertStructGo` for the struct pair,
  `appendParam`/`isUpper` from func.go).  The recursion of `Convert` is
  closed through an explicit fuel parameter that is decremented once per
  nesting level; `ConvertTop` supplies ample fuel (`sizeOf t + 1`), so on
  the acyclic descriptors representable by `Ty` the fuel branch is
  unreachable (recursion on cyclic descriptors is an explicit non-goal of
  the source).  The `panic` on an unhandled kind is modelled as the
  `ConvErr.unhandled` error value carrying the offending descriptor and
  its kind, which is exactly the data interpolated into the Go panic
  message.
* Go string operations are modelled on the ASCII fragment relevant to the
  code (`unicode.IsUpper`, `unicode.IsLetter`, `strings.ToLower`,
  `fmt.Sprintf("%s%d", ...)`).
-/

inductive PrimKind where
  | bool | int | int8 | int16 | int32 | int64
  | uint | uint8 | uint16 | uint32 | uint64 | uintptr
  | float32 | float64 | string
deriving DecidableEq, Repr

inductive Kind where
  | prim (k : PrimKind)
  | ptr | chan | func | struct | slice | array | map | interface | complex128
deriving DecidableEq, Repr

/-- Model of `reflect.Type` descriptors.  Composite descriptors
(`ptr`, `chan`, `slice`, `array`, `map`) are the unnamed forms, whose
`Name()` is the empty string; `prim` covers the fifteen primitive kinds
together with the declared type name (so a defined alias such as
`type MyInt int` is `prim .int "MyInt"`, distinct from `prim .int "int"`).
`interface` carries the flag deciding `Implements(errorType)`.
`complex` stands for a kind the dispatcher does not handle (e.g.
`complex128`). -/
inductive Ty where
  | prim (k : PrimKind) (nm : String)
  | ptr (elem : Ty)
  | chan (elem : Ty)
  | func (nm : String) (ins : List Ty) (outs : List Ty)
  | struct (nm : String) (fields : List (String × Ty))
  | slice (elem : Ty)
  | array (n : Nat) (elem : Ty)
  | map (key : Ty) (value : Ty)
  | interface (nm : String) (isErr : Bool)
  | complex (nm : String)
deriving Repr

mutual

def Ty.beq : Ty → Ty → Bool
  | .prim k1 n1, .prim k2 n2 => k1 == k2 && n1 == n2
  | .ptr e1, .ptr e2 => Ty.beq e1 e2
  | .chan e1, .chan e2 => Ty.beq e1 e2
  | .func n1 i1 o1, .func n2 i2 o2 => n1 == n2 && Ty.beqList i1 i2 && Ty.beqList o1 o2
  | .struct n1 f1, .struct n2 f2 => n1 == n2 && Ty.beqFields f1 f2
  | .slice e1, .slice e2 => Ty.beq e1 e2
  | .array n1 e1, .array n2 e2 => n1 == n2 && Ty.beq e1 e2
  | .map k1 v1, .map k2 v2 => Ty.beq k1 k2 && Ty.beq v1 v2
  | .interface n1 b1, .interface n2 b2 => n1 == n2 && b1 == b2
  | .complex n1, .complex n2 => n1 == n2
  | _, _ => false

def Ty.beqList : List Ty → List Ty → Bool
  | [], [] => true
  | t1 :: r1, t2 :: r2 => Ty.beq t1 t2 && Ty.beqList r1 r2
  | _, _ => false

def Ty.beqFields : List (String × Ty) → List (String × Ty) → Bool
  | [], [] => true
  | (n1, t1) :: r1, (n2, t2) :: r2 => n1 == n2 && Ty.beq t1 t2 && Ty.beqFields r1 r2
  | _, _ => false

end

mutual

theorem Ty.eq_of_beq : ∀ {t1 t2 : Ty}, Ty.beq t1 t2 = true → t1 = t2
  | .prim _ _, .prim _ _, h => by
    simp only [Ty.beq, Bool.and_eq_true, beq_iff_eq] at h; simp [h.1, h.2]
  | .ptr _, .ptr _, h => by
    simp only [Ty.beq] at h; simp [Ty.eq_of_beq h]
  | .chan _, .chan _, h => by
    simp only [Ty.beq] at h; simp [Ty.eq_of_beq h]
  | .func _ _ _, .func _ _ _, h => by
    simp only [Ty.beq, Bool.and_eq_true, beq_iff_eq] at h
    simp [h.1.1, Ty.eqList_of_beqList h.1.2, Ty.eqList_of_beqList h.2]
  | .struct _ _, .struct _ _, h => by
    simp only [Ty.beq, Bool.and_eq_true, beq_iff_eq] at h
    simp [h.1, Ty.eqFields_of_beqFields h.2]
  | .slice _, .slice _, h => by
    simp only [Ty.beq] at h; simp [Ty.eq_of_beq h]
  | .array _ _, .array _ _, h => by
    simp only [Ty.beq, Bool.and_eq_true, beq_iff_eq] at h
    simp [h.1, Ty.eq_of_beq h.2]
  | .map _ _, .map _ _, h => by
    simp only [Ty.beq, Bool.and_eq_true] at h
    simp [Ty.eq_of_beq h.1, Ty.eq_of_beq h.2]
  | .interface _ _, .interface _ _, h => by
    simp only [Ty.beq, Bool.and_eq_true, beq_iff_eq] at h; simp [h.1, h.2]
  | .complex _, .complex _, h => by
    simp only [Ty.beq, beq_iff_eq] at h; simp [h]

theorem Ty.eqList_of_beqList : ∀ {l1 l2 : List Ty}, Ty.beqList l1 l2 = true → l1 = l2
  | [], [], _ => rfl
  | _ :: _, _ :: _, h => by
    simp only [Ty.beqList, Bool.and_eq_true] at h
    simp [Ty.eq_of_beq h.1, Ty.eqList_of_beqList h.2]

theorem Ty.eqFields_of_beqFields :
    ∀ {l1 l2 : List (String × Ty)}, Ty.beqFields l1 l2 = true → l1 = l2
  | [], [], _ => rfl
  | (_, _) :: _, (_, _) :: _, h => by
    simp only [Ty.beqFields, Bool.and_eq_true, beq_iff_eq] at h
    simp [h.1.1, Ty.eq_of_beq h.1.2, Ty.eqFields_of_beqFields h.2]

end

mutual

theorem Ty.beq_refl : ∀ (t : Ty), Ty.beq t t = true
  | .prim _ _ => by simp [Ty.beq]
  | .ptr e => by simp [Ty.beq, Ty.beq_refl e]
  | .chan e => by simp [Ty.beq, Ty.beq_refl e]
  | .func _ i o => by simp [Ty.beq, Ty.beqList_refl i, Ty.beqList_refl o]
  | .struct _ f => by simp [Ty.beq, Ty.beqFields_refl f]
  | .slice e => by simp [Ty.beq, Ty.beq_refl e]
  | .array _ e => by simp [Ty.beq, Ty.beq_refl e]
  | .map k v => by simp [Ty.beq, Ty.beq_refl k, Ty.beq_refl v]
  | .interface _ _ => by simp [Ty.beq]
  | .complex _ => by simp [Ty.beq]

theorem Ty.beqList_refl : ∀ (l : List Ty), Ty.beqList l l = true
  | [] => rfl
  | t :: r => by simp [Ty.beqList, Ty.beq_refl t, Ty.beqList_refl r]

theorem Ty.beqFields_refl : ∀ (l : List (String × Ty)), Ty.beqFields l l = true
  | [] => rfl
  | (_, t) :: r => by simp [Ty.beqFields, Ty.beq_refl t, Ty.beqFields_refl r]

end

instance : DecidableEq Ty := fun t1 t2 =>
  if h : Ty.beq t1 t2 = true then .isTrue (Ty.eq_of_beq h)
  else .isFalse (fun he => h (he ▸ Ty.beq_refl t1))

/-- Kind tag of a descriptor, modelling `reflect.Type.Kind()`. -/
def Ty.kind : Ty → Kind
  | .prim k _ => .prim k
  | .ptr _ => .ptr
  | .chan _ => .chan
  | .func _ _ _ => .func
  | .struct _ _ => .struct
  | .slice _ => .slice
  | .array _ _ => .array
  | .map _ _ => .map
  | .interface _ _ => .interface
  | .complex _ => .complex128

/-- Declared name of a descriptor, modelling `reflect.Type.Name()`:
unnamed composite forms report the empty string. -/
def Ty.name : Ty → String
  | .prim _ nm => nm
  | .func nm _ _ => nm
  | .struct nm _ => nm
  | .interface nm _ => nm
  | .complex nm => nm
  | _ => ""

/-- Model of `out.Implements(errorType)` for the descriptors representable
by `Ty`: the error-like contract holds exactly for interfaces flagged as
the error interface. -/
def implementsError : Ty → Bool
  | .interface _ isErr => isErr
  | _ => false

/-- ASCII fragment of Go `unicode.IsUpper`. -/
def unicodeIsUpper (c : Char) : Bool := 65 ≤ c.toNat && c.toNat ≤ 90

/-- ASCII fragment of Go `unicode.IsLetter`. -/
def unicodeIsLetter (c : Char) : Bool :=
  (65 ≤ c.toNat && c.toNat ≤ 90) || (97 ≤ c.toNat && c.toNat ≤ 122)

/-- func.go `isUpper`: true unless some rune of `s` is a letter that is
not upper-case.  In particular non-letter characters never fail the test. -/
def isUpper (s : String) : Bool :=
  s.data.all (fun r => !(!unicodeIsUpper r && unicodeIsLetter r))

/-- ASCII fragment of Go `strings.ToLower`. -/
def goToLower (s : String) : String := String.mk (s.data.map Char.toLower)

/-- Model of `strings.ToLower(name[0:1]) + name[1:]` (first character
lowered, rest unchanged). -/
def lowerFirst (s : String) : String :=
  match s.data with
  | [] => ""
  | c :: rest => String.mk (c.toLower :: rest)

/-- Model of the one-character slice `s[0:1]`. -/
def firstCharString (s : String) : String :=
  match s.data with
  | [] => ""
  | c :: _ => String.mk [c]

/-- go2ts.go `FuncConf`. -/
structure FuncConf where
  isSync : Bool := false
  alwaysArray : Bool := false
  noIgnoreContext : Bool := false
  isMethod : Bool := false
  methodName : String := ""
  paramNames : List String := []

/-- func.go `param`. -/
structure Param where
  name : String
  ty : String
deriving DecidableEq, Repr

/-- func.go `funcInfo`. -/
structure FuncInfo where
  fname : String
  params : List Param
  returns : String
deriving DecidableEq, Repr

abbrev Decl := String

/-- Mutable converter state: the `types` override table, the `paramNames`
table (both association lists keyed by descriptor identity, later
insertions shadowing earlier ones, mirroring Go map update), and a
caller-owned component `user` standing for whatever state the caller's
hook closure captures. -/
structure ConvState (σ : Type) where
  types : List (Ty × Decl)
  paramNames : List (Ty × Decl)
  user : σ

/-- Go map lookup `m[t]` on the association-list model. -/
def lookupA (l : List (Ty × Decl)) (t : Ty) : Option Decl :=
  (l.find? (fun p => decide (p.1 = t))).map (fun p => p.2)

/-- Go map update `m[k] = v` on the association-list model. -/
def insertA (l : List (Ty × Decl)) (k : Ty) (v : Decl) : List (Ty × Decl) :=
  (k, v) :: l

/-- `Converter.AddTypes` / `Converter.AddParamNames` merge loop. -/
def addAllA (l : List (Ty × Decl)) (adds : List (Ty × Decl)) : List (Ty × Decl) :=
  adds.foldl (fun m kv => insertA m kv.1 kv.2) l

/-- The caller-settable `Converter` callbacks: `OnConvert` may mutate the
converter state (the Go hook typically calls `AddTypes`), `ConfigureFunc`
is the per-function configuration resolver (`nil` when unset). -/
structure Hooks (σ : Type) where
  onConvert : Ty → Decl → ConvState σ → ConvState σ
  configureFunc : Option (Ty → FuncConf)

/-- The `NewConverter` default no-op hook with unset `ConfigureFunc`. -/
def defaultHooks (σ : Type) : Hooks σ where
  onConvert := fun _ _ st => st
  configureFunc := none

/-- Conversion errors: `unhandled` models the `panic` in `Convert`,
carrying the offending descriptor and its kind — the data interpolated
into the Go panic message `unhandled type: %v (%s)`.  `outOfFuel` is the
artifact of closing the unguarded recursion with fuel; `ConvertTop`
always supplies enough fuel for it to be unreachable. -/
inductive ConvErr where
  | unhandled (t : Ty) (k : Kind)
  | outOfFuel
deriving Repr

abbrev ConvFn (σ : Type) := ConvState σ → Ty → Except ConvErr (Decl × ConvState σ)

/-- go2ts.go `primitives`: the pre-seeded primitive descriptor →
declaration table. -/
def primitivesList : List (Ty × Decl) :=
  [ (.prim .bool "bool", "boolean"),
    (.prim .int "int", "number"),
    (.prim .int8 "int8", "number"),
    (.prim .int16 "int16", "number"),
    (.prim .int32 "int32", "number"),
    (.prim .int64 "int64", "number"),
    (.prim .uint "uint", "number"),
    (.prim .uint8 "uint8", "number"),
    (.prim .uint16 "uint16", "number"),
    (.prim .uint32 "uint32", "number"),
    (.prim .uint64 "uint64", "number"),
    (.prim .float32 "float32", "number"),
    (.prim .float64 "float64", "number"),
    (.prim .uintptr "uintptr", "number"),
    (.prim .string "string", "string") ]

/-- func.go `paramNames`: the pre-seeded primitive parameter-name
abbreviations (note: no entry for `uintptr`). -/
def paramNamesList : List (Ty × Decl) :=
  [ (.prim .bool "bool", "bool"),
    (.prim .int "int", "int"),
    (.prim .int8 "int8", "int"),
    (.prim .int16 "int16", "int"),
    (.prim .int32 "int32", "int"),
    (.prim .int64 "int64", "int"),
    (.prim .uint "uint", "uint"),
    (.prim .uint8 "uint8", "uint"),
    (.prim .uint16 "uint16", "uint"),
    (.prim .uint32 "uint32", "uint"),
    (.prim .uint64 "uint64", "uint"),
    (.prim .float32 "float32", "num"),
    (.prim .float64 "float64", "num"),
    (.prim .string "string", "str") ]

/-- `NewConverter`: fresh tables populated via the `AddTypes` /
`AddParamNames` merge. -/
def newConverterState {σ : Type} (u : σ) : ConvState σ where
  types := addAllA [] primitivesList
  paramNames := addAllA [] paramNamesList
  user := u

/-- Decimal digit list of `n` (model of `fmt.Sprintf` `%d`), closed with
fuel; `natDecStr` supplies ample fuel. -/
def natDecF : Nat → Nat → List Char
  | 0, _ => []
  | f + 1, n =>
    if n < 10 then [Char.ofNat (48 + n)]
    else natDecF f (n / 10) ++ [Char.ofNat (48 + n % 10)]

def natDecStr (n : Nat) : String := String.mk (natDecF (n + 1) n)

/-- Candidate name sequence of the `appendParam` loop:
`name`, `name1`, `name2`, … (`fmt.Sprintf("%s%d", p.Name, n)`). -/
def cand (base : String) (n : Nat) : String :=
  if n = 0 then base else base ++ natDecStr n

/-- The index search of the func.go `appendParam` loop: starting at `n`,
return the first index whose candidate name is not taken.  The loop in the
source is unbounded; here it is closed with fuel, and `appendParam` passes
`taken.length + 1` which is always sufficient (pigeonhole over the
pairwise-distinct candidates), so the fuel-exhausted fallback is
unreachable. -/
def appendParamIdx (taken : List String) (base : String) : Nat → Nat → Nat
  | 0, n => n
  | f + 1, n => if taken.contains (cand base n) then appendParamIdx taken base f (n + 1) else n

/-- func.go `appendParam`: append `p` to the parameter list under the
first non-colliding candidate name. -/
def appendParam (finfo : FuncInfo) (p : Param) : FuncInfo :=
  let taken := finfo.params.map (fun q => q.name)
  let n := appendParamIdx taken p.name (taken.length + 1) 0
  { finfo with params := finfo.params ++ [{ p with name := cand p.name n }] }

/-- go2ts.go `paramName`: table lookup, then element recursion for
pointer/slice, then the name heuristic.  (The pointer and slice cases
spell out the leading table lookup so that the recursion on the element
descriptor is structural; behaviour is identical to the source order
lookup-then-kind-test.) -/
def paramNameGo (pnames : List (Ty × Decl)) : Ty → String
  | .ptr e =>
    match lookupA pnames (.ptr e) with
    | some nm => nm
    | none => paramNameGo pnames e
  | .slice e =>
    match lookupA pnames (.slice e) with
    | some nm => nm
    | none => paramNameGo pnames e
  | t =>
    match lookupA pnames t with
    | some nm => nm
    | none =>
      let nm := t.name
      if nm = "" then "_"
      else if isUpper nm then goToLower nm
      else lowerFirst nm

/-- go2ts.go `convert` (lower-case): run `Convert`, then re-check the
types table, because `OnConvert` may have called `AddTypes`. -/
def convertGo {σ : Type} (cnv : ConvFn σ) : ConvFn σ := fun st t => do
  let (ts, st1) ← cnv st t
  match lookupA st1.types t with
  | some uts => .ok (uts, st1)
  | none => .ok (ts, st1)

/-- The return-value loop of `extractFunc`: convert the declared return
types in order, skipping the last one when it implements the error
interface. -/
def convertRets {σ : Type} (conv : ConvFn σ) :
    ConvState σ → List Ty → Except ConvErr (List Decl × ConvState σ)
  | st, [] => .ok ([], st)
  | st, [out] =>
    if implementsError out then .ok ([], st)
    else do
      let (d, st1) ← conv st out
      .ok ([d], st1)
  | st, out :: rest => do
    let (d, st1) ← conv st out
    let (ds, st2) ← convertRets conv st1 rest
    .ok (d :: ds, st2)

/-- The parameter loop of `extractFunc`: `i` is the original parameter
index (starting at 1 for methods), context-named parameters are skipped
unless `NoIgnoreContext`, and each retained parameter is appended through
`appendParam`. -/
def buildParams {σ : Type} (conv : ConvFn σ) (fconf : FuncConf) :
    ConvState σ → Nat → List Ty → FuncInfo → Except ConvErr (FuncInfo × ConvState σ)
  | st, _, [], finfo => .ok (finfo, st)
  | st, i, inTy :: rest, finfo =>
    if inTy.name == "Context" && !fconf.noIgnoreContext then
      buildParams conv fconf st (i + 1) rest finfo
    else do
      let pname :=
        if i < fconf.paramNames.length then fconf.paramNames.getD i ""
        else paramNameGo st.paramNames inTy
      let (d, st1) ← conv st inTy
      buildParams conv fconf st1 (i + 1) rest (appendParam finfo { name := pname, ty := d })

/-- go2ts.go `extractFunc`: fold the return declarations, build the
parameter list (receiver skipped for methods), and finally wrap the
folded result in `Promise<...>` unless `IsSync`. -/
def extractFuncGo {σ : Type} (conv : ConvFn σ) (st : ConvState σ) (nm : String)
    (ins outs : List Ty) (fconf : FuncConf) : Except ConvErr (FuncInfo × ConvState σ) := do
  let (rets, st1) ← convertRets conv st outs
  let returns :=
    if (rets.length > 0 && fconf.alwaysArray) || rets.length > 1 then
      "[" ++ String.intercalate ", " rets ++ "]"
    else
      match rets with
      | [r] => r
      | _ => "void"
  let finfo : FuncInfo := { fname := nm, params := [], returns := returns }
  let start := if fconf.isMethod then 1 else 0
  let (finfo1, st2) ← buildParams conv fconf st1 start (ins.drop start) finfo
  let finfo2 :=
    if !fconf.isSync then { finfo1 with returns := "Promise<" ++ finfo1.returns ++ ">" }
    else finfo1
  .ok (finfo2, st2)

/-- go2ts.go `convertFunc`: resolve `ConfigureFunc`, extract, render. -/
def convertFuncGo {σ : Type} (conv : ConvFn σ) (cfgF : Option (Ty → FuncConf))
    (st : ConvState σ) (nm : String) (ins outs : List Ty) :
    Except ConvErr (Decl × ConvState σ) := do
  let fconf := match cfgF with | some f => f (Ty.func nm ins outs) | none => {}
  let (finfo, st1) ← extractFuncGo conv st nm ins outs fconf
  let params := finfo.params.map (fun p => p.name ++ ": " ++ p.ty)
  if fconf.isMethod then
    .ok (fconf.methodName ++ " (" ++ String.intercalate ", " params ++ "): " ++ finfo.returns, st1)
  else
    .ok ("(" ++ String.intercalate ", " params ++ ") => " ++ finfo.returns, st1)

/-- go2ts.go `extractStruct` field loop: a field is skipped unless
`isUpper` holds of the one-character slice of its name; retained fields
keep declaration order with recursively converted types. -/
def extractStructGo {σ : Type} (conv : ConvFn σ) :
    ConvState σ → List (String × Ty) → Except ConvErr (List (String × Decl) × ConvState σ)
  | st, [] => .ok ([], st)
  | st, (fn, ft) :: rest =>
    if !isUpper (firstCharString fn) then extractStructGo conv st rest
    else do
      let (d, st1) ← conv st ft
      let (fs, st2) ← extractStructGo conv st1 rest
      .ok ((fn, d) :: fs, st2)

/-- go2ts.go `convertStruct`: render the extracted fields. -/
def convertStructGo {σ : Type} (conv : ConvFn σ) (st : ConvState σ)
    (fields : List (String × Ty)) : Except ConvErr (Decl × ConvState σ) := do
  let (fs, st1) ← extractStructGo conv st fields
  if fs.length = 0 then .ok ("\x7b\x7d", st1)
  else .ok ("\x7b " ++ String.intercalate ", " (fs.map (fun f => f.1 ++ ": " ++ f.2)) ++ " \x7d", st1)

/-- The deferred `OnConvert` invocation at `Convert` exit: applied to the
dispatch result when it is a declaration; on the panic path the error
propagates (the process is dying, its state unobservable). -/
def applyHook {σ : Type} (H : Hooks σ) (t : Ty) :
    Except ConvErr (Decl × ConvState σ) → Except ConvErr (Decl × ConvState σ)
  | .ok (ts, st1) => .ok (ts, H.onConvert t ts st1)
  | .error e => .error e

/-- go2ts.go `Convert`: override-table lookup, primitive-kind alias scan,
then kind dispatch, with the deferred `OnConvert` hook applied to the
freshly computed declaration.  (In the source the `defer` that invokes the
hook is registered only after both early returns, so neither the override
path nor the alias path invokes the hook; on the panic path the hook runs
while the panic unwinds an already-dying process, which the error result
— carrying no state — models.)  `deeper` is the conversion used for
nested descriptors; it is `none` only when the fuel closing the
recursion is exhausted, which `ConvertTop` makes unreachable. -/
def ConvertBody {σ : Type} (H : Hooks σ) (deeper : Option (ConvFn σ))
    (st : ConvState σ) (t : Ty) : Except ConvErr (Decl × ConvState σ) :=
  match lookupA st.types t with
  | some ts => .ok (ts, st)
  | none =>
    match primitivesList.find? (fun p => decide (p.1.kind = t.kind)) with
    | some p => .ok (p.2, st)
    | none =>
      match deeper with
      | none => .error .outOfFuel
      | some conv =>
        let dispatched : Except ConvErr (Decl × ConvState σ) :=
          match t with
          | .ptr e => conv st e
          | .chan e => do
            let (s, st1) ← conv st e
            .ok ("AsyncIterable<" ++ s ++ ">", st1)
          | .func nm ins outs => convertFuncGo conv H.configureFunc st nm ins outs
          | .struct _ fields => convertStructGo conv st fields
          | .slice e => do
            let (s, st1) ← conv st e
            .ok ("Array<" ++ s ++ ">", st1)
          | .map _ v => do
            let (s, st1) ← conv st v
            .ok ("\x7b [k: string]: " ++ s ++ " \x7d", st1)
          | .interface _ _ => .ok ("any", st)
          | _ => .error (.unhandled t t.kind)
        applyHook H t dispatched

/-- The fuel-closed recursion of `Convert`: at each nesting level the
nested conversion goes through `convertGo` (the lower-case `convert`)
around the next level of `ConvertF`. -/
def ConvertF {σ : Type} (H : Hooks σ) :
    Nat → ConvState σ → Ty → Except ConvErr (Decl × ConvState σ)
  | 0, st, t => ConvertBody H none st t
  | fuel + 1, st, t =>
    ConvertBody H (some (fun st1 u => convertGo (fun st2 v => ConvertF H fuel st2 v) st1 u)) st t

mutual

/-- Structural size of a descriptor, used only to supply ample fuel and
as the induction measure; every proper sub-descriptor has smaller rank. -/
def Ty.rank : Ty → Nat
  | .prim _ _ => 1
  | .ptr e => Ty.rank e + 1
  | .chan e => Ty.rank e + 1
  | .func _ ins outs => Ty.rankList ins + Ty.rankList outs + 1
  | .struct _ fds => Ty.rankFields fds + 1
  | .slice e => Ty.rank e + 1
  | .array _ e => Ty.rank e + 1
  | .map k v => Ty.rank k + Ty.rank v + 1
  | .interface _ _ => 1
  | .complex _ => 1

def Ty.rankList : List Ty → Nat
  | [] => 0
  | t :: r => Ty.rank t + Ty.rankList r + 1

def Ty.rankFields : List (String × Ty) → Nat
  | [] => 0
  | (_, t) :: r => Ty.rank t + Ty.rankFields r + 1

end

/-- `Converter.Convert`, the public entry point: `ConvertF` with ample
fuel (one unit per nesting level is consumed and every nested conversion
is on a descriptor of strictly smaller rank). -/
def ConvertTop {σ : Type} (H : Hooks σ) (st : ConvState σ) (t : Ty) : Except ConvErr (Decl × ConvState σ) :=
  ConvertF H (Ty.rank t + 1) st t


/-- Declaration that the spec assigns to each primitive kind (`boolean`,
`number`, `string`), stated independently of the table for the refinement
proof of the alias fallback. -/
def primDecl : PrimKind → Decl
  | .bool => "boolean"
  | .string => "string"
  | _ => "number"

-- Shared concrete descriptors used by the concrete theorems below.

def strTy : Ty := .prim .string "string"

def UserTy : Ty := .struct "User" [("Name", strTy)]

def contextTy : Ty := .interface "Context" false

def errorTy : Ty := .interface "error" true

/-- The function descriptor of the end-to-end spec example:
`func(ctx Context, name string) (User, error)`. -/
def exampleFuncTy : Ty := .func "" [contextTy, strTy] [UserTy, errorTy]

def TeamTy : Ty := .struct "Team" [("Cap", UserTy)]

/-- Outer struct with two references to `UserTy`, one before and one after
the field whose conversion triggers the override installation. -/
def DocTy : Ty := .struct "Doc" [("A", UserTy), ("B", TeamTy), ("C", UserTy)]

def WrapTy : Ty := .struct "Wrap" [("A", UserTy)]

/-- Discovery hook that installs the override `UserRef` for `UserTy` when
invoked for `TeamTy` (a caller registering a discovered type by name). -/
def installOnTeamHooks : Hooks Unit where
  onConvert := fun t _ st =>
    if t = TeamTy then { st with types := insertA st.types UserTy "UserRef" } else st
  configureFunc := none

/-- Discovery hook that installs the override `UserRef` for `UserTy` as
soon as `UserTy` itself is converted. -/
def installOnUserHooks : Hooks Unit where
  onConvert := fun t _ st =>
    if t = UserTy then { st with types := insertA st.types UserTy "UserRef" } else st
  configureFunc := none

/-- Struct whose only field name starts with an underscore: not exported
in Go, and its first character is not an upper-case letter. -/
def underscoreStructTy : Ty := .struct "T" [("_hidden", strTy)]

/-- A conversion function that never changes the `types` or `paramNames`
tables on success.  `Convert` itself never writes the tables; only the
caller-supplied hook can, so this holds of the whole engine whenever the
hook preserves them. -/
def KeepsTables {σ : Type} (conv : ConvFn σ) : Prop :=
  ∀ st t r st', conv st t = .ok (r, st') →
    st'.types = st.types ∧ st'.paramNames = st.paramNames

/-- A hook whose `OnConvert` preserves the two tables (for example the
default no-op hook). -/
def HookKeepsTables {σ : Type} (H : Hooks σ) : Prop :=
  ∀ u d s, ((H.onConvert u d s).types = s.types ∧ (H.onConvert u d s).paramNames = s.paramNames)

/-- Modelled from the spec: drop the last declared return value when it
satisfies the error-like contract.  Used to compare the return loop of
`extractFunc` against the spec wording. -/
def specDropTrailingError (outs : List Ty) : List Ty :=
  match outs.getLast? with
  | some l => if implementsError l then outs.dropLast else outs
  | none => []

/-- Modelled from the spec: remaining return declarations are computed by
recursive conversion in declared order (plain sequential conversion with
no skip logic). -/
def threadConvert {σ : Type} (conv : ConvFn σ) :
    ConvState σ → List Ty → Except ConvErr (List Decl × ConvState σ)
  | st, [] => .ok ([], st)
  | st, t :: rest => do
    let (d, st1) ← conv st t
    let (ds, st2) ← threadConvert conv st1 rest
    .ok (d :: ds, st2)

/-- Modelled from the spec folding rule: zero remaining → void; exactly
one remaining and `AlwaysArray` false → that declaration unwrapped;
otherwise a fixed-length tuple declaration. -/
def specFoldReturns (ds : List Decl) (alwaysArr : Bool) : Decl :=
  if ds.length = 0 then "void"
  else if ds.length = 1 ∧ alwaysArr = false then ds.headD "void"
  else "[" ++ String.intercalate ", " ds ++ "]"

/-- Modelled from the spec: the folded return declaration is wrapped in
`Promise<...>` if and only if `IsSync` is false. -/
def specAsyncWrap (isSync : Bool) (d : Decl) : Decl :=
  if isSync = false then "Promise<" ++ d ++ ">" else d

/-- Modelled from the spec: sequential conversion of an already-filtered
field list in declared order (name kept, type recursively converted). -/
def threadConvertFields {σ : Type} (conv : ConvFn σ) :
    ConvState σ → List (String × Ty) → Except ConvErr (List (String × Decl) × ConvState σ)
  | st, [] => .ok ([], st)
  | st, (fn, ft) :: rest => do
    let (d, st1) ← conv st ft
    let (fs, st2) ← threadConvertFields conv st1 rest
    .ok ((fn, d) :: fs, st2)

/-- Decimal value of a digit string, the inverse used to prove the
candidate names `name`, `name1`, `name2`, ... pairwise distinct. -/
def decVal (l : List Char) : Nat :=
  l.foldl (fun acc c => acc * 10 + (c.toNat - 48)) 0

/-- Pointwise conjunction of a predicate over a type list (kernel
computable). -/
def allTys (f : Ty → Bool) : List Ty → Bool
  | [] => true
  | t :: r => f t && allTys f r

/-- Pointwise conjunction of a predicate over struct field types. -/
def allFieldTys (f : Ty → Bool) : List (String × Ty) → Bool
  | [] => true
  | (_, t) :: r => f t && allFieldTys f r

/-- Fuel-indexed check that every descriptor the dispatcher can reach
(pointees, channel and slice elements, struct field types, function
parameter and return types, map values — but not map keys, which the code
never inspects) has a kind the dispatcher handles; fixed-size arrays and
`complex` kinds fail it at any depth. -/
def modeledDeepF : Nat → Ty → Bool
  | 0, _ => false
  | fu + 1, t =>
    match t with
    | .prim _ _ => true
    | .ptr e => modeledDeepF fu e
    | .chan e => modeledDeepF fu e
    | .func _ ins outs => allTys (modeledDeepF fu) ins && allTys (modeledDeepF fu) outs
    | .struct _ fds => allFieldTys (modeledDeepF fu) fds
    | .slice e => modeledDeepF fu e
    | .array _ _ => false
    | .map _ v => modeledDeepF fu v
    | .interface _ _ => true
    | .complex _ => false

/-- `modeledDeepF` at the same ample fuel `ConvertTop` uses. -/
def modeledDeep (t : Ty) : Bool := modeledDeepF (Ty.rank t + 1) t

/-- Event log for instrumenting hook invocations: each `OnConvert` call is
recorded as a (descriptor, declaration) pair in the caller-owned state. -/
abbrev EventLog := List (Ty × Decl)

/-- Instrumentation hook recording every `OnConvert` invocation; it
mutates nothing but the caller-owned log, so it observes exactly when and
with which arguments the engine fires the discovery hook. -/
def loggerHooks : Hooks EventLog where
  onConvert := fun t d st => { st with user := st.user ++ [(t, d)] }
  configureFunc := none

/-- A conversion function whose hook invocations, on success, append only
events for descriptors of rank at most that of the converted
descriptor. -/
def LogsLe (conv : ConvFn EventLog) : Prop :=
  ∀ st t r st', conv st t = .ok (r, st') →
    ∃ E, st'.user = st.user ++ E ∧ ∀ e ∈ E, Ty.rank e.1 ≤ Ty.rank t

/-- A predicate on the override table preserved by a conversion function:
if it holds before a successful call, it holds after. -/
def KeepsTypesP {σ : Type} (P : List (Ty × Decl) → Prop) (conv : ConvFn σ) : Prop :=
  ∀ st t r st', conv st t = .ok (r, st') → P st.types → P st'.types

/-- A hook whose `OnConvert` preserves a predicate on the override table
(for example: "the entry for `T` is `ov`" is preserved by a hook that only
ever installs that entry or touches other keys). -/
def HookKeepsTypesP {σ : Type} (P : List (Ty × Decl) → Prop) (H : Hooks σ) : Prop :=
  ∀ u d s, P s.types → P (H.onConvert u d s).types

/-- A converter state whose override table already carries the
hook-installed entry `(UserTy, "UserRef")`, as left behind by a discovery
hook that registered `User` by name. -/
def overriddenState : ConvState Unit :=
  { newConverterState () with types := insertA (newConverterState ()).types UserTy "UserRef" }

-- Sanity checks mirroring go2ts_test.go.

example :
    ConvertTop (defaultHooks Unit) (newConverterState ()) (.prim .string "string") =
      .ok ("string", newConverterState ()) := by rfl

example :
    ConvertTop (defaultHooks Unit) (newConverterState ())
        (.struct "User" [("Name", .prim .string "string")]) =
      .ok ("\x7b Name: string \x7d", newConverterState ()) := by rfl

example :
    ConvertTop (defaultHooks Unit) (newConverterState ())
        (.func "" [.prim .string "string", .prim .int "int", .prim .bool "bool"] []) =
      .ok ("(str: string, int: number, bool: boolean) => Promise<void>", newConverterState ()) := by
  rfl

example :
    ConvertTop (defaultHooks Unit) (newConverterState ())
        (.func "" [] [.prim .string "string", .prim .string "string", .interface "error" true]) =
      .ok ("() => Promise<[string, string]>", newConverterState ()) := by rfl

example :
    ConvertTop (defaultHooks Unit) (newConverterState ())
        (.slice (.ptr (.struct "User" [("Name", .prim .string "string")]))) =
      .ok ("Array<\x7b Name: string \x7d>", newConverterState ()) := by rfl

example :
    ConvertTop (defaultHooks Unit) (newConverterState ())
        (.map (.prim .string "string") (.prim .int "int")) =
      .ok ("\x7b [k: string]: number \x7d", newConverterState ()) := by rfl

-- Override-table short-circuit lemmas.

/-- Unfolding lemma: an override-table entry is returned verbatim — no
dispatch, no hook invocation, no state change. -/
theorem ConvertBody_entry {σ : Type} (H : Hooks σ) (deeper : Option (ConvFn σ))
    (st : ConvState σ) (t : Ty) (e : Decl) (h : lookupA st.types t = some e) :
    ConvertBody H deeper st t = .ok (e, st) := by
  unfold ConvertBody
  rw [h]

/-- The same, lifted to `ConvertF` at any fuel (including zero). -/
theorem ConvertF_entry {σ : Type} (H : Hooks σ) (fuel : Nat) (st : ConvState σ)
    (t : Ty) (e : Decl) (h : lookupA st.types t = some e) :
    ConvertF H fuel st t = .ok (e, st) := by
  cases fuel <;> exact ConvertBody_entry H _ st t e h

/-- Unfolding lemma: with no table entry, a descriptor of primitive kind is
resolved by the kind scan over the pre-seeded primitive table, again with
no hook invocation and no state change. -/
theorem ConvertBody_alias {σ : Type} (H : Hooks σ) (deeper : Option (ConvFn σ))
    (st : ConvState σ) (k : PrimKind) (nm : String)
    (h : lookupA st.types (.prim k nm) = none) :
    ConvertBody H deeper st (.prim k nm) = .ok (primDecl k, st) := by
  unfold ConvertBody
  rw [h]
  cases k <;> rfl

/-- The same, lifted to `ConvertF` at any fuel (including zero). -/
theorem ConvertF_alias {σ : Type} (H : Hooks σ) (fuel : Nat) (st : ConvState σ)
    (k : PrimKind) (nm : String) (h : lookupA st.types (.prim k nm) = none) :
    ConvertF H fuel st (.prim k nm) = .ok (primDecl k, st) := by
  cases fuel <;> exact ConvertBody_alias H _ st k nm h

/-- C3: an override-table entry short-circuits everything — `Convert`
returns the entry verbatim for any descriptor (primitive-kind fallback
included, since the table lookup precedes the kind scan), with no
structural work and no state change; and a descriptor with no entry whose
kind equals the kind of a pre-seeded primitive resolves to that
primitive's mapped declaration even though the descriptor identity is
new. -/
theorem C3_override_and_primitive_alias :
    (∀ (σ : Type) (H : Hooks σ) (fuel : Nat) (st : ConvState σ) (t : Ty) (e : Decl),
        lookupA st.types t = some e → ConvertF H fuel st t = .ok (e, st)) ∧
    (∀ (σ : Type) (H : Hooks σ) (fuel : Nat) (st : ConvState σ) (k : PrimKind) (nm : String),
        lookupA st.types (.prim k nm) = none →
        ConvertF H fuel st (.prim k nm) = .ok (primDecl k, st)) :=
  ⟨fun _ H fuel st t e h => ConvertF_entry H fuel st t e h,
   fun _ H fuel st k nm h => ConvertF_alias H fuel st k nm h⟩

/-- C3 witness: a descriptor with a registered override (of interface
kind) returns the override; a fresh defined alias of `string` kind (name
`MyString`, no table entry) returns the primitive mapping. -/
theorem C3_override_and_primitive_alias_witness :
    ConvertF (defaultHooks Unit)
        0 { types := [(contextTy, "Ctx")], paramNames := [], user := () } contextTy =
      .ok ("Ctx", { types := [(contextTy, "Ctx")], paramNames := [], user := () }) ∧
    ConvertF (defaultHooks Unit) 0 (newConverterState ()) (.prim .string "MyString") =
      .ok ("string", newConverterState ()) :=
  ⟨C3_override_and_primitive_alias.1 Unit (defaultHooks Unit) 0
      { types := [(contextTy, "Ctx")], paramNames := [], user := () } contextTy "Ctx" rfl,
   C3_override_and_primitive_alias.2 Unit (defaultHooks Unit) 0
      (newConverterState ()) .string "MyString" rfl⟩

/-- C4: a dynamic-length slice of `string` converts to `Array<string>`,
but the corresponding fixed-size array descriptor `[2]string` does not
render identically — the dispatcher has no case for the array kind and
fails with the unhandled-kind error, contradicting the claim (and the
repository's own `TestArrays`, which expects `Array<string>`). -/
theorem C4_slice_ok_array_panics :
    ConvertTop (defaultHooks Unit) (newConverterState ()) (.slice strTy) =
      .ok ("Array<string>", newConverterState ()) ∧
    ConvertTop (defaultHooks Unit) (newConverterState ()) (.array 2 strTy) =
      .error (.unhandled (.array 2 strTy) .array) :=
  ⟨rfl, rfl⟩

/-- C7 counterexample: converting `func(ctx Context, name string) (User,
error)` with the default converter yields `(str: string) =>
Promise<{ Name: string }>` — the pre-seeded parameter-name table maps the
`string` primitive to `str` (reflection supplies no declared parameter
names), so the output differs from the claimed `(name: string) => ...`. -/
theorem C7_counterexample :
    ConvertTop (defaultHooks Unit) (newConverterState ()) exampleFuncTy =
      .ok ("(str: string) => Promise<\x7b Name: string \x7d>", newConverterState ()) ∧
    ("(str: string) => Promise<\x7b Name: string \x7d>" : String) ≠
      "(name: string) => Promise<\x7b Name: string \x7d>" :=
  ⟨rfl, by decide⟩

/-- C7 (amended): converting `func(ctx Context, name string) (User,
error)` with the default configuration drops the context parameter and the
trailing error, converts `User` structurally, and names the string
parameter `str` from the default parameter-name table:
the result is exactly `(str: string) => Promise<{ Name: string }>`. -/
theorem C7_default_conversion :
    ConvertTop (defaultHooks Unit) (newConverterState ()) exampleFuncTy =
      .ok ("(str: string) => Promise<\x7b Name: string \x7d>", newConverterState ()) :=
  rfl

/-- Inserting an entry makes it the lookup result for that key (Go map
update semantics on the association-list model). -/
theorem lookupA_insert_self (l : List (Ty × Decl)) (T : Ty) (v : Decl) :
    lookupA (insertA l T v) T = some v := by
  simp [lookupA, insertA]

/-- With an override-table entry present, the nested conversion function
used by the engine (`convert` around `Convert` at any recursion depth)
returns the entry verbatim and leaves the state unchanged. -/
theorem convertGo_entry {σ : Type} (H : Hooks σ) (fuel : Nat) (st : ConvState σ)
    (T : Ty) (ov : Decl) (h : lookupA st.types T = some ov) :
    convertGo (fun st2 v => ConvertF H fuel st2 v) st T = .ok (ov, st) := by
  simp only [convertGo]
  rw [ConvertF_entry H fuel st T ov h]
  show (match lookupA st.types T with
    | some uts => (Except.ok (uts, st) : Except ConvErr (Decl × ConvState σ))
    | none => .ok (ov, st)) = .ok (ov, st)
  rw [h]

/-- C5 counterexample: the struct field `_hidden` is not exported in Go
and its first character `_` is not in the upper-case class, yet the
conversion includes it — func.go `isUpper` only rejects letters that fail
`unicode.IsUpper`, and `_` is not a letter. -/
theorem C5_counterexample :
    ConvertTop (defaultHooks Unit) (newConverterState ()) underscoreStructTy =
      .ok ("\x7b _hidden: string \x7d", newConverterState ()) ∧
    unicodeIsUpper (Char.ofNat 95) = false ∧ isUpper "_" = true :=
  ⟨rfl, rfl, rfl⟩

-- Frame machinery: the engine never writes the tables itself.

theorem bindE_ok {ε α β : Type} (x : Except ε α) (f : α → Except ε β) (b : β) :
    (x >>= f = Except.ok b) ↔ ∃ a, x = .ok a ∧ f a = .ok b := by
  cases x with
  | error e => simp [Bind.bind, Except.bind]
  | ok a => simp [Bind.bind, Except.bind]

theorem convertGo_keeps {σ : Type} {conv : ConvFn σ} (hc : KeepsTables conv) :
    KeepsTables (convertGo conv) := by
  intro st t r st' h
  simp only [convertGo] at h
  rw [bindE_ok] at h
  obtain ⟨⟨ts, st1⟩, h1, h2⟩ := h
  have := hc st t ts st1 h1
  cases hl : lookupA st1.types t <;> rw [hl] at h2 <;>
    (injection h2 with h2; injection h2 with _ h2; subst h2; exact this)

theorem convertRets_keeps {σ : Type} {conv : ConvFn σ} (hc : KeepsTables conv) :
    ∀ (outs : List Ty) (st : ConvState σ) (ds : List Decl) (st' : ConvState σ),
      convertRets conv st outs = .ok (ds, st') →
      st'.types = st.types ∧ st'.paramNames = st.paramNames := by
  intro outs
  induction outs with
  | nil =>
    intro st ds st' h
    simp only [convertRets] at h
    injection h with h; injection h with _ h; subst h; exact ⟨rfl, rfl⟩
  | cons out rest ih =>
    intro st ds st' h
    cases rest with
    | nil =>
      simp only [convertRets] at h
      by_cases he : implementsError out
      · rw [if_pos he] at h
        injection h with h; injection h with _ h; subst h; exact ⟨rfl, rfl⟩
      · rw [if_neg he] at h
        rw [bindE_ok] at h
        obtain ⟨⟨d, st1⟩, h1, h2⟩ := h
        injection h2 with h2; injection h2 with _ h2; subst h2
        exact hc st out d st1 h1
    | cons b bs =>
      simp only [convertRets] at h
      rw [bindE_ok] at h
      obtain ⟨⟨d, st1⟩, h1, h2⟩ := h
      rw [bindE_ok] at h2
      obtain ⟨⟨ds2, st2⟩, h3, h4⟩ := h2
      injection h4 with h4; injection h4 with _ h4; subst h4
      have e1 := hc st out d st1 h1
      have e2 := ih st1 ds2 st2 h3
      exact ⟨e2.1.trans e1.1, e2.2.trans e1.2⟩

theorem buildParams_keeps {σ : Type} {conv : ConvFn σ} (hc : KeepsTables conv)
    (fconf : FuncConf) :
    ∀ (ins : List Ty) (st : ConvState σ) (i : Nat) (finfo finfo' : FuncInfo)
      (st' : ConvState σ),
      buildParams conv fconf st i ins finfo = .ok (finfo', st') →
      st'.types = st.types ∧ st'.paramNames = st.paramNames := by
  intro ins
  induction ins with
  | nil =>
    intro st i finfo finfo' st' h
    simp only [buildParams] at h
    injection h with h; injection h with _ h; subst h; exact ⟨rfl, rfl⟩
  | cons inTy rest ih =>
    intro st i finfo finfo' st' h
    simp only [buildParams] at h
    by_cases hctx : (inTy.name == "Context" && !fconf.noIgnoreContext) = true
    · rw [if_pos hctx] at h
      exact ih st (i + 1) finfo finfo' st' h
    · rw [if_neg hctx] at h
      rw [bindE_ok] at h
      obtain ⟨⟨d, st1⟩, h1, h2⟩ := h
      have e1 := hc st inTy d st1 h1
      have e2 := ih st1 (i + 1) _ finfo' st' h2
      exact ⟨e2.1.trans e1.1, e2.2.trans e1.2⟩

theorem extractFuncGo_keeps {σ : Type} {conv : ConvFn σ} (hc : KeepsTables conv)
    (st : ConvState σ) (nm : String) (ins outs : List Ty) (fconf : FuncConf)
    (finfo : FuncInfo) (st' : ConvState σ)
    (h : extractFuncGo conv st nm ins outs fconf = .ok (finfo, st')) :
    st'.types = st.types ∧ st'.paramNames = st.paramNames := by
  simp only [extractFuncGo] at h
  rw [bindE_ok] at h
  obtain ⟨⟨rets, st1⟩, h1, h2⟩ := h
  rw [bindE_ok] at h2
  obtain ⟨⟨finfo1, st2⟩, h3, h4⟩ := h2
  injection h4 with h4; injection h4 with _ h4; subst h4
  have e1 := convertRets_keeps hc outs st rets st1 h1
  have e2 := buildParams_keeps hc fconf _ st1 _ _ finfo1 st2 h3
  exact ⟨e2.1.trans e1.1, e2.2.trans e1.2⟩

theorem convertFuncGo_keeps {σ : Type} {conv : ConvFn σ} (hc : KeepsTables conv)
    (cfgF : Option (Ty → FuncConf)) (st : ConvState σ) (nm : String)
    (ins outs : List Ty) (r : Decl) (st' : ConvState σ)
    (h : convertFuncGo conv cfgF st nm ins outs = .ok (r, st')) :
    st'.types = st.types ∧ st'.paramNames = st.paramNames := by
  cases cfgF with
  | none =>
    simp only [convertFuncGo] at h
    rw [bindE_ok] at h
    obtain ⟨⟨finfo, st1⟩, h1, h2⟩ := h
    have e1 := extractFuncGo_keeps hc st nm ins outs _ finfo st1 h1
    simp only [show ({} : FuncConf).isMethod = false from rfl, Bool.false_eq_true,
      if_false] at h2
    injection h2 with h2; injection h2 with _ h2; subst h2; exact e1
  | some f =>
    simp only [convertFuncGo] at h
    rw [bindE_ok] at h
    obtain ⟨⟨finfo, st1⟩, h1, h2⟩ := h
    have e1 := extractFuncGo_keeps hc st nm ins outs _ finfo st1 h1
    by_cases hm : (f (Ty.func nm ins outs)).isMethod = true
    · rw [if_pos hm] at h2
      injection h2 with h2; injection h2 with _ h2; subst h2; exact e1
    · rw [if_neg hm] at h2
      injection h2 with h2; injection h2 with _ h2; subst h2; exact e1

theorem extractStructGo_keeps {σ : Type} {conv : ConvFn σ} (hc : KeepsTables conv) :
    ∀ (fields : List (String × Ty)) (st : ConvState σ)
      (fs : List (String × Decl)) (st' : ConvState σ),
      extractStructGo conv st fields = .ok (fs, st') →
      st'.types = st.types ∧ st'.paramNames = st.paramNames := by
  intro fields
  induction fields with
  | nil =>
    intro st fs st' h
    simp only [extractStructGo] at h
    injection h with h; injection h with _ h; subst h; exact ⟨rfl, rfl⟩
  | cons f rest ih =>
    intro st fs st' h
    obtain ⟨fn, ft⟩ := f
    simp only [extractStructGo] at h
    by_cases hu : (!isUpper (firstCharString fn)) = true
    · rw [if_pos hu] at h
      exact ih st fs st' h
    · rw [if_neg hu] at h
      rw [bindE_ok] at h
      obtain ⟨⟨d, st1⟩, h1, h2⟩ := h
      rw [bindE_ok] at h2
      obtain ⟨⟨fs2, st2⟩, h3, h4⟩ := h2
      injection h4 with h4; injection h4 with _ h4; subst h4
      have e1 := hc st ft d st1 h1
      have e2 := ih st1 fs2 st2 h3
      exact ⟨e2.1.trans e1.1, e2.2.trans e1.2⟩

theorem convertStructGo_keeps {σ : Type} {conv : ConvFn σ} (hc : KeepsTables conv)
    (st : ConvState σ) (fields : List (String × Ty)) (r : Decl) (st' : ConvState σ)
    (h : convertStructGo conv st fields = .ok (r, st')) :
    st'.types = st.types ∧ st'.paramNames = st.paramNames := by
  simp only [convertStructGo] at h
  rw [bindE_ok] at h
  obtain ⟨⟨fs, st1⟩, h1, h2⟩ := h
  have e1 := extractStructGo_keeps hc fields st fs st1 h1
  by_cases hz : fs.length = 0
  · rw [if_pos hz] at h2
    injection h2 with h2; injection h2 with _ h2; subst h2; exact e1
  · rw [if_neg hz] at h2
    injection h2 with h2; injection h2 with _ h2; subst h2; exact e1

theorem ConvertBody_keeps {σ : Type} {H : Hooks σ} {conv : ConvFn σ}
    (hH : HookKeepsTables H) (hc : KeepsTables conv) :
    ∀ (st : ConvState σ) (t : Ty) (r : Decl) (st' : ConvState σ),
      ConvertBody H (some conv) st t = .ok (r, st') →
      st'.types = st.types ∧ st'.paramNames = st.paramNames := by
  intro st t r st' h
  unfold ConvertBody at h
  cases hl : lookupA st.types t <;> rw [hl] at h
  case some e =>
    injection h with h; injection h with _ h; subst h; exact ⟨rfl, rfl⟩
  cases hp : primitivesList.find? (fun p => decide (p.1.kind = t.kind)) <;> rw [hp] at h
  case some p =>
    injection h with h; injection h with _ h; subst h; exact ⟨rfl, rfl⟩
  simp only [] at h
  -- h : applyHook H t dispatched = .ok (r, st')
  have hdisp :
      ∀ (res : Except ConvErr (Decl × ConvState σ)),
        applyHook H t res = .ok (r, st') →
        (∀ d1 s1, res = .ok (d1, s1) → s1.types = st.types ∧ s1.paramNames = st.paramNames) →
        st'.types = st.types ∧ st'.paramNames = st.paramNames := by
    intro res hres hok
    cases res with
    | error e => simp [applyHook] at hres
    | ok p =>
      obtain ⟨d1, s1⟩ := p
      simp only [applyHook] at hres
      injection hres with hres; injection hres with _ hres; subst hres
      have e1 := hok d1 s1 rfl
      have e2 := hH t d1 s1
      exact ⟨e2.1.trans e1.1, e2.2.trans e1.2⟩
  cases t with
  | prim k nm => exact absurd hp (by cases k <;> simp [primitivesList, Ty.kind])
  | ptr e =>
    refine hdisp _ h ?_
    intro d1 s1 hres
    exact hc st e d1 s1 hres
  | chan e =>
    refine hdisp _ h ?_
    intro d1 s1 hres
    rw [bindE_ok] at hres
    obtain ⟨⟨d2, s2⟩, h1, h2⟩ := hres
    injection h2 with h2; injection h2 with _ h2; subst h2
    exact hc st e d2 s2 h1
  | func nm ins outs =>
    refine hdisp _ h ?_
    intro d1 s1 hres
    exact convertFuncGo_keeps hc H.configureFunc st nm ins outs d1 s1 hres
  | struct nm fields =>
    refine hdisp _ h ?_
    intro d1 s1 hres
    exact convertStructGo_keeps hc st fields d1 s1 hres
  | slice e =>
    refine hdisp _ h ?_
    intro d1 s1 hres
    rw [bindE_ok] at hres
    obtain ⟨⟨d2, s2⟩, h1, h2⟩ := hres
    injection h2 with h2; injection h2 with _ h2; subst h2
    exact hc st e d2 s2 h1
  | array n e => simp [applyHook] at h
  | map k v =>
    refine hdisp _ h ?_
    intro d1 s1 hres
    rw [bindE_ok] at hres
    obtain ⟨⟨d2, s2⟩, h1, h2⟩ := hres
    injection h2 with h2; injection h2 with _ h2; subst h2
    exact hc st v d2 s2 h1
  | interface nm isErr =>
    refine hdisp _ h ?_
    intro d1 s1 hres
    injection hres with hres; injection hres with _ hres; subst hres
    exact ⟨rfl, rfl⟩
  | complex nm => simp [applyHook] at h

theorem ConvertF_keeps {σ : Type} {H : Hooks σ} (hH : HookKeepsTables H) :
    ∀ (fuel : Nat), KeepsTables (fun st t => ConvertF H fuel st t) := by
  intro fuel
  induction fuel with
  | zero =>
    intro st t r st' h
    show _ ∧ _
    unfold ConvertF ConvertBody at h
    cases hl : lookupA st.types t <;> rw [hl] at h
    case some e =>
      injection h with h; injection h with _ h; subst h; exact ⟨rfl, rfl⟩
    cases hp : primitivesList.find? (fun p => decide (p.1.kind = t.kind)) <;> rw [hp] at h
    case some p =>
      injection h with h; injection h with _ h; subst h; exact ⟨rfl, rfl⟩
    exact absurd h (by simp)
  | succ fuel ih =>
    intro st t r st' h
    exact ConvertBody_keeps hH (convertGo_keeps ih) st t r st' h

/-- C10: with a hook that does not touch the tables (in particular the
default no-op hook) and a pure `ConfigureFunc`, a successful `Convert`
leaves the override table and the param-name table exactly as they were —
the engine itself never writes them; only `AddTypes`/`AddParamNames`
(modelled by `insertA`/`addAllA`) and caller hook code do. -/
theorem C10_tables_frame :
    ∀ (σ : Type) (H : Hooks σ), HookKeepsTables H →
      ∀ (st : ConvState σ) (t : Ty) (r : Decl) (st' : ConvState σ),
        ConvertTop H st t = .ok (r, st') →
        st'.types = st.types ∧ st'.paramNames = st.paramNames := by
  intro σ H hH st t r st' h
  exact ConvertF_keeps hH (Ty.rank t + 1) st t r st' h

/-- C10 witness: the default converter converting the `User` struct ends
with both tables unchanged. -/
theorem C10_tables_frame_witness :
    ∃ (r : Decl) (st' : ConvState Unit),
      ConvertTop (defaultHooks Unit) (newConverterState ()) UserTy = .ok (r, st') ∧
      st'.types = (newConverterState () : ConvState Unit).types ∧
      st'.paramNames = (newConverterState () : ConvState Unit).paramNames :=
  ⟨"\x7b Name: string \x7d", newConverterState (), rfl,
    C10_tables_frame Unit (defaultHooks Unit) (fun _ _ _ => ⟨rfl, rfl⟩)
      (newConverterState ()) UserTy "\x7b Name: string \x7d" (newConverterState ()) rfl⟩

-- Return-folding refinement (C1).

theorem specDropTrailingError_cons_cons (a b : Ty) (l : List Ty) :
    specDropTrailingError (a :: b :: l) = a :: specDropTrailingError (b :: l) := by
  unfold specDropTrailingError
  rw [List.getLast?_cons_cons]
  cases hg : (b :: l).getLast? with
  | none => exact absurd (List.getLast?_eq_none_iff.mp hg) (by simp)
  | some x =>
    show (if implementsError x = true then (a :: b :: l).dropLast else a :: b :: l) =
      a :: (if implementsError x = true then (b :: l).dropLast else b :: l)
    by_cases hx : implementsError x = true
    · rw [if_pos hx, if_pos hx, List.dropLast_cons₂]
    · rw [if_neg hx, if_neg hx]

theorem convertRets_eq_threadConvert {σ : Type} (conv : ConvFn σ) :
    ∀ (outs : List Ty) (st : ConvState σ),
      convertRets conv st outs = threadConvert conv st (specDropTrailingError outs) := by
  intro outs
  induction outs with
  | nil => intro st; rfl
  | cons out rest ih =>
    intro st
    cases rest with
    | nil =>
      show convertRets conv st [out] =
        threadConvert conv st (if implementsError out = true then [] else [out])
      by_cases he : implementsError out = true
      · rw [if_pos he]
        simp only [convertRets, if_pos he]
        rfl
      · rw [if_neg he]
        simp only [convertRets, if_neg he]
        unfold threadConvert
        cases hc : conv st out with
        | error e => rfl
        | ok p => cases p with | mk d st1 => rfl
    | cons b bs =>
      rw [specDropTrailingError_cons_cons]
      show convertRets conv st (out :: b :: bs) = _
      unfold convertRets threadConvert
      cases hc : conv st out with
      | error e => rfl
      | ok p =>
        cases p with
        | mk d st1 =>
          show (do
              let (ds, st2) ← convertRets conv st1 (b :: bs)
              (.ok (d :: ds, st2) : Except ConvErr (List Decl × ConvState σ))) = _
          rw [ih st1]
          rfl

theorem buildParams_returns {σ : Type} (conv : ConvFn σ) (fconf : FuncConf) :
    ∀ (ins : List Ty) (st : ConvState σ) (i : Nat) (finfo finfo' : FuncInfo)
      (st' : ConvState σ),
      buildParams conv fconf st i ins finfo = .ok (finfo', st') →
      finfo'.returns = finfo.returns := by
  intro ins
  induction ins with
  | nil =>
    intro st i finfo finfo' st' h
    simp only [buildParams] at h
    injection h with h; injection h with h _; subst h; rfl
  | cons inTy rest ih =>
    intro st i finfo finfo' st' h
    simp only [buildParams] at h
    by_cases hctx : (inTy.name == "Context" && !fconf.noIgnoreContext) = true
    · rw [if_pos hctx] at h
      exact ih st (i + 1) finfo finfo' st' h
    · rw [if_neg hctx] at h
      rw [bindE_ok] at h
      obtain ⟨⟨d, st1⟩, h1, h2⟩ := h
      have := ih st1 (i + 1) _ finfo' st' h2
      rw [this]
      rfl

/-- C1: the return declaration produced by `extractFunc` is exactly the
spec rule.  First conjunct: the return loop equals plain sequential
conversion of the spec-side list obtained by dropping a trailing
error-like return.  Second conjunct: given the list `ds` of converted
remaining returns, the extracted `Returns` field is the spec fold (zero →
void, one without `AlwaysArray` → unwrapped, otherwise a tuple) wrapped in
`Promise<...>` exactly when `IsSync` is false. -/
theorem C1_return_folding :
    (∀ (σ : Type) (conv : ConvFn σ) (st : ConvState σ) (outs : List Ty),
        convertRets conv st outs = threadConvert conv st (specDropTrailingError outs)) ∧
    (∀ (σ : Type) (conv : ConvFn σ) (st : ConvState σ) (nm : String) (ins outs : List Ty)
        (fconf : FuncConf) (ds : List Decl) (stm : ConvState σ) (finfo : FuncInfo)
        (st' : ConvState σ),
        convertRets conv st outs = .ok (ds, stm) →
        extractFuncGo conv st nm ins outs fconf = .ok (finfo, st') →
        finfo.returns = specAsyncWrap fconf.isSync (specFoldReturns ds fconf.alwaysArray)) := by
  constructor
  · intro σ conv st outs
    exact convertRets_eq_threadConvert conv outs st
  · intro σ conv st nm ins outs fconf ds stm finfo st' hr h
    simp only [extractFuncGo] at h
    rw [bindE_ok] at h
    obtain ⟨⟨rets, st1⟩, h1, h2⟩ := h
    rw [hr] at h1
    injection h1 with h1
    injection h1 with h1a h1b
    subst h1a; subst h1b
    rw [bindE_ok] at h2
    obtain ⟨⟨finfo1, st2⟩, h3, h4⟩ := h2
    have hret := buildParams_returns conv fconf _ _ _ _ _ _ h3
    injection h4 with h4; injection h4 with h4 _; subst h4
    cases hs : fconf.isSync with
    | true =>
      simp only [hs, Bool.not_true, Bool.false_eq_true, if_false]
      rw [specAsyncWrap, if_neg (by simp)]
      rw [hret]
      cases ds with
      | nil => simp [specFoldReturns]
      | cons a rest =>
        cases rest with
        | nil =>
          cases ha : fconf.alwaysArray with
          | true => simp [specFoldReturns, ha]
          | false => simp [specFoldReturns, ha]
        | cons b bs => simp [specFoldReturns]
    | false =>
      simp only [hs, Bool.not_false, if_true]
      rw [specAsyncWrap, if_pos rfl]
      simp only [FuncInfo.returns] at *
      rw [hret]
      cases ds with
      | nil => simp [specFoldReturns]
      | cons a rest =>
        cases rest with
        | nil =>
          cases ha : fconf.alwaysArray with
          | true => simp [specFoldReturns, ha]
          | false => simp [specFoldReturns, ha]
        | cons b bs => simp [specFoldReturns]

/-- C1 witness: for `func() (User, error)` under the default
configuration, the two hypotheses hold by computation and the extracted
return declaration is `Promise<{ Name: string }>`. -/
theorem C1_return_folding_witness :
    ((convertRets (fun st t => ConvertF (defaultHooks Unit) 3 st t)
        (newConverterState ()) [UserTy, errorTy]) =
      .ok (["\x7b Name: string \x7d"], newConverterState ())) ∧
    (extractFuncGo (fun st t => ConvertF (defaultHooks Unit) 3 st t)
        (newConverterState ()) "" [] [UserTy, errorTy] {} =
      .ok ({ fname := "", params := [],
             returns := "Promise<\x7b Name: string \x7d>" }, newConverterState ())) ∧
    ("Promise<\x7b Name: string \x7d>" : String) =
      specAsyncWrap ({} : FuncConf).isSync
        (specFoldReturns ["\x7b Name: string \x7d"] ({} : FuncConf).alwaysArray) :=
  ⟨rfl, rfl,
    C1_return_folding.2 Unit (fun st t => ConvertF (defaultHooks Unit) 3 st t)
      (newConverterState ()) "" [] [UserTy, errorTy] {} ["\x7b Name: string \x7d"]
      (newConverterState ())
      { fname := "", params := [], returns := "Promise<\x7b Name: string \x7d>" }
      (newConverterState ()) rfl rfl⟩

-- Struct expansion refinement (C5, amended).

theorem extractStructGo_eq_filtered {σ : Type} (conv : ConvFn σ) :
    ∀ (fds : List (String × Ty)) (st : ConvState σ),
      extractStructGo conv st fds =
        threadConvertFields conv st
          (fds.filter (fun f => isUpper (firstCharString f.1))) := by
  intro fds
  induction fds with
  | nil => intro st; rfl
  | cons f rest ih =>
    intro st
    obtain ⟨fn, ft⟩ := f
    by_cases hu : isUpper (firstCharString fn) = true
    · rw [List.filter_cons_of_pos (by simpa using hu)]
      show (if !isUpper (firstCharString fn) then extractStructGo conv st rest
        else do
          let (d, st1) ← conv st ft
          let (fs, st2) ← extractStructGo conv st1 rest
          (.ok ((fn, d) :: fs, st2) : Except ConvErr (List (String × Decl) × ConvState σ))) = _
      rw [hu]
      show (do
          let (d, st1) ← conv st ft
          let (fs, st2) ← extractStructGo conv st1 rest
          (.ok ((fn, d) :: fs, st2) : Except ConvErr (List (String × Decl) × ConvState σ))) = _
      unfold threadConvertFields
      cases hc : conv st ft with
      | error e => rfl
      | ok p =>
        cases p with
        | mk d st1 =>
          show (do
              let (fs, st2) ← extractStructGo conv st1 rest
              (.ok ((fn, d) :: fs, st2) : Except ConvErr (List (String × Decl) × ConvState σ))) = _
          rw [ih st1]
          rfl
    · rw [List.filter_cons_of_neg (by simpa using hu)]
      show (if !isUpper (firstCharString fn) then extractStructGo conv st rest
        else do
          let (d, st1) ← conv st ft
          let (fs, st2) ← extractStructGo conv st1 rest
          (.ok ((fn, d) :: fs, st2) : Except ConvErr (List (String × Decl) × ConvState σ))) = _
      rw [Bool.not_eq_true] at hu
      rw [hu]
      show extractStructGo conv st rest = _
      exact ih st

/-- C5 (amended): a struct field is included if and only if the func.go
`isUpper` test holds of the one-character slice of its name, which for a
first character `c` means: `c` is not a letter failing the upper-case
test (so upper-case letters and all non-letters such as `_` pass, and
lower-case letters are silently skipped); included fields keep declared
order with recursively converted types, and the rendering is the empty
object for zero included fields, otherwise the comma-space joined
`Name: Decl` list in braces. -/
theorem C5_struct_field_filter :
    (∀ (σ : Type) (conv : ConvFn σ) (fds : List (String × Ty)) (st : ConvState σ),
        extractStructGo conv st fds =
          threadConvertFields conv st
            (fds.filter (fun f => isUpper (firstCharString f.1)))) ∧
    (∀ (c : Char) (rest : List Char),
        isUpper (firstCharString (String.mk (c :: rest))) =
          !(unicodeIsLetter c && !unicodeIsUpper c)) ∧
    (∀ (σ : Type) (conv : ConvFn σ) (fds : List (String × Ty)) (st : ConvState σ)
        (fs : List (String × Decl)) (stm : ConvState σ),
        extractStructGo conv st fds = .ok (fs, stm) →
        convertStructGo conv st fds =
          .ok ((if fs.length = 0 then "\x7b\x7d"
            else "\x7b " ++ String.intercalate ", " (fs.map (fun f => f.1 ++ ": " ++ f.2)) ++ " \x7d"),
            stm)) := by
  refine ⟨fun _ conv fds st => extractStructGo_eq_filtered conv fds st, ?_, ?_⟩
  · intro c rest
    show isUpper (String.mk [c]) = _
    simp [isUpper, Bool.and_comm]
  · intro σ conv fds st fs stm h
    simp only [convertStructGo]
    rw [h]
    show (if fs.length = 0 then (Except.ok ("\x7b\x7d", stm) : Except ConvErr (Decl × ConvState σ))
      else .ok ("\x7b " ++ String.intercalate ", " (fs.map (fun f => f.1 ++ ": " ++ f.2)) ++ " \x7d", stm)) = _
    by_cases hz : fs.length = 0
    · rw [if_pos hz, if_pos hz]
    · rw [if_neg hz, if_neg hz]

/-- C5 witness: a struct with fields `Name` (kept: upper-case), `age`
(skipped: lower-case letter) and `_x` (kept: underscore is not a letter)
expands to exactly the two kept fields in order. -/
theorem C5_struct_field_filter_witness :
    extractStructGo (fun st t => ConvertF (defaultHooks Unit) 3 st t)
        (newConverterState ())
        [("Name", strTy), ("age", .prim .int "int"), ("_x", strTy)] =
      .ok ([("Name", "string"), ("_x", "string")], newConverterState ()) ∧
    convertStructGo (fun st t => ConvertF (defaultHooks Unit) 3 st t)
        (newConverterState ())
        [("Name", strTy), ("age", .prim .int "int"), ("_x", strTy)] =
      .ok ("\x7b Name: string, _x: string \x7d", newConverterState ()) :=
  ⟨rfl,
    C5_struct_field_filter.2.2 Unit (fun st t => ConvertF (defaultHooks Unit) 3 st t)
      [("Name", strTy), ("age", .prim .int "int"), ("_x", strTy)]
      (newConverterState ()) [("Name", "string"), ("_x", "string")]
      (newConverterState ()) rfl⟩

-- Candidate-name machinery for appendParam (C8).

theorem decVal_append_digit (l : List Char) (c : Char) :
    decVal (l ++ [c]) = 10 * decVal l + (c.toNat - 48) := by
  simp [decVal, List.foldl_append, Nat.mul_comm]

theorem digit_roundtrip (d : Nat) (h : d < 10) : (Char.ofNat (48 + d)).toNat - 48 = d := by
  interval_cases d <;> decide

theorem decVal_natDecF : ∀ (f n : Nat), n < f → decVal (natDecF f n) = n := by
  intro f
  induction f with
  | zero => intro n h; omega
  | succ f ih =>
    intro n h
    unfold natDecF
    by_cases h10 : n < 10
    · rw [if_pos h10]
      show decVal ([] ++ [Char.ofNat (48 + n)]) = n
      rw [decVal_append_digit]
      simp [decVal, digit_roundtrip n h10]
    · rw [if_neg h10]
      rw [decVal_append_digit]
      have hdiv : n / 10 < f := by
        have : n / 10 < n := Nat.div_lt_self (by omega) (by omega)
        omega
      rw [ih (n / 10) hdiv, digit_roundtrip (n % 10) (Nat.mod_lt n (by omega))]
      omega

theorem natDecStr_injective : Function.Injective natDecStr := by
  intro m n h
  have hd : natDecF (m + 1) m = natDecF (n + 1) n := by
    injection h
  have h1 := decVal_natDecF (m + 1) m (by omega)
  have h2 := decVal_natDecF (n + 1) n (by omega)
  rw [hd] at h1
  omega

theorem natDecF_length_pos (f n : Nat) (hf : 0 < f) : 0 < (natDecF f n).length := by
  cases f with
  | zero => omega
  | succ f =>
    unfold natDecF
    by_cases h10 : n < 10
    · rw [if_pos h10]; simp
    · rw [if_neg h10]; simp

theorem cand_injective (b : String) : Function.Injective (cand b) := by
  intro i j h
  unfold cand at h
  by_cases hi : i = 0 <;> by_cases hj : j = 0
  · omega
  · rw [if_pos hi, if_neg hj] at h
    have hl := congrArg String.length h
    rw [String.length_append] at hl
    have hlen : 0 < (natDecStr j).length := natDecF_length_pos (j + 1) j (by omega)
    omega
  · rw [if_neg hi, if_pos hj] at h
    have hl := congrArg String.length h
    rw [String.length_append] at hl
    have hlen : 0 < (natDecStr i).length := natDecF_length_pos (i + 1) i (by omega)
    omega
  · rw [if_neg hi, if_neg hj] at h
    have hdata : (b ++ natDecStr i).data = (b ++ natDecStr j).data := by rw [h]
    simp only [String.data_append] at hdata
    have := List.append_cancel_left hdata
    exact natDecStr_injective (String.ext this)

theorem cand_fresh_exists (taken : List String) (b : String) :
    ∃ n, n ≤ taken.length ∧ cand b n ∉ taken := by
  by_contra hcon
  push_neg at hcon
  have hsub : ((List.range (taken.length + 1)).map (cand b)) ⊆ taken := by
    intro x hx
    rw [List.mem_map] at hx
    obtain ⟨n, hn, rfl⟩ := hx
    rw [List.mem_range] at hn
    exact hcon n (by omega)
  have hnd : ((List.range (taken.length + 1)).map (cand b)).Nodup :=
    (List.nodup_range (taken.length + 1)).map (cand_injective b)
  have hcard : ((List.range (taken.length + 1)).map (cand b)).toFinset.card =
      taken.length + 1 := by
    rw [List.toFinset_card_of_nodup hnd]
    simp
  have hle : ((List.range (taken.length + 1)).map (cand b)).toFinset.card ≤
      taken.toFinset.card := by
    apply Finset.card_le_card
    intro x hx
    rw [List.mem_toFinset] at hx ⊢
    exact hsub hx
  have := taken.toFinset_card_le
  omega

theorem appendParamIdx_spec (taken : List String) (b : String) :
    ∀ (fuel n : Nat), (∃ k, k < fuel ∧ cand b (n + k) ∉ taken) →
      cand b (appendParamIdx taken b fuel n) ∉ taken ∧
      n ≤ appendParamIdx taken b fuel n ∧
      (∀ j, n ≤ j → j < appendParamIdx taken b fuel n → cand b j ∈ taken) := by
  intro fuel
  induction fuel with
  | zero => intro n h; omega
  | succ fuel ih =>
    intro n h
    unfold appendParamIdx
    by_cases hc : taken.contains (cand b n) = true
    · rw [if_pos hc]
      have hmem : cand b n ∈ taken := List.elem_iff.mp hc
      obtain ⟨k, hk, hfree⟩ := h
      have hk0 : k ≠ 0 := by
        intro h0
        rw [h0, Nat.add_zero] at hfree
        exact hfree hmem
      have hrec := ih (n + 1) ⟨k - 1, by omega, by
        have : n + 1 + (k - 1) = n + k := by omega
        rw [this]
        exact hfree⟩
      refine ⟨hrec.1, by omega, ?_⟩
      intro j hj1 hj2
      by_cases hjn : j = n
      · rw [hjn]; exact hmem
      · exact hrec.2.2 j (by omega) hj2
    · rw [if_neg hc]
      refine ⟨fun hmem => hc (List.elem_iff.mpr hmem), Nat.le_refl n, ?_⟩
      intro j hj1 hj2
      omega

theorem appendParam_spec (finfo : FuncInfo) (p : Param) :
    ∃ m, appendParam finfo p =
        { finfo with params := finfo.params ++ [{ name := cand p.name m, ty := p.ty }] } ∧
      cand p.name m ∉ finfo.params.map (fun q => q.name) ∧
      (∀ j, j < m → cand p.name j ∈ finfo.params.map (fun q => q.name)) := by
  obtain ⟨k, hk, hfree⟩ :=
    cand_fresh_exists (finfo.params.map (fun q => q.name)) p.name
  have hspec := appendParamIdx_spec (finfo.params.map (fun q => q.name)) p.name
    ((finfo.params.map (fun q => q.name)).length + 1) 0 ⟨k, by omega, by simpa using hfree⟩
  refine ⟨appendParamIdx (finfo.params.map (fun q => q.name)) p.name
      ((finfo.params.map (fun q => q.name)).length + 1) 0, ?_, hspec.1, ?_⟩
  · rfl
  · intro j hj
    exact hspec.2.2 j (by omega) hj

theorem appendParam_nodup (finfo : FuncInfo) (p : Param)
    (h : (finfo.params.map (fun q => q.name)).Nodup) :
    ((appendParam finfo p).params.map (fun q => q.name)).Nodup := by
  obtain ⟨m, heq, hfresh, _⟩ := appendParam_spec finfo p
  rw [heq]
  simp only [List.map_append, List.map_cons, List.map_nil]
  simp [List.nodup_append, h, hfresh]

theorem buildParams_nodup {σ : Type} (conv : ConvFn σ) (fconf : FuncConf) :
    ∀ (ins : List Ty) (st : ConvState σ) (i : Nat) (finfo finfo' : FuncInfo)
      (st' : ConvState σ),
      buildParams conv fconf st i ins finfo = .ok (finfo', st') →
      (finfo.params.map (fun q => q.name)).Nodup →
      (finfo'.params.map (fun q => q.name)).Nodup := by
  intro ins
  induction ins with
  | nil =>
    intro st i finfo finfo' st' h hnd
    simp only [buildParams] at h
    injection h with h; injection h with h _; subst h; exact hnd
  | cons inTy rest ih =>
    intro st i finfo finfo' st' h hnd
    simp only [buildParams] at h
    by_cases hctx : (inTy.name == "Context" && !fconf.noIgnoreContext) = true
    · rw [if_pos hctx] at h
      exact ih st (i + 1) finfo finfo' st' h hnd
    · rw [if_neg hctx] at h
      rw [bindE_ok] at h
      obtain ⟨⟨d, st1⟩, h1, h2⟩ := h
      exact ih st1 (i + 1) _ finfo' st' h2 (appendParam_nodup finfo _ hnd)

/-- C8: every function conversion produces pairwise-distinct parameter
names — the parameter list built by `extractFunc` has no duplicate names;
and `appendParam` assigns a colliding parameter the first unused
candidate among `name`, `name1`, `name2`, ... (the appended entry carries
candidate index `m` where every smaller candidate is already taken and
candidate `m` is not). -/
theorem C8_distinct_param_names :
    (∀ (σ : Type) (conv : ConvFn σ) (st : ConvState σ) (nm : String)
        (ins outs : List Ty) (fconf : FuncConf) (finfo : FuncInfo) (st' : ConvState σ),
        extractFuncGo conv st nm ins outs fconf = .ok (finfo, st') →
        (finfo.params.map (fun q => q.name)).Nodup) ∧
    (∀ (finfo : FuncInfo) (p : Param),
        ∃ m, appendParam finfo p =
            { finfo with params := finfo.params ++ [{ name := cand p.name m, ty := p.ty }] } ∧
          cand p.name m ∉ finfo.params.map (fun q => q.name) ∧
          (∀ j, j < m → cand p.name j ∈ finfo.params.map (fun q => q.name))) := by
  constructor
  · intro σ conv st nm ins outs fconf finfo st' h
    simp only [extractFuncGo] at h
    rw [bindE_ok] at h
    obtain ⟨⟨rets, st1⟩, h1, h2⟩ := h
    rw [bindE_ok] at h2
    obtain ⟨⟨finfo1, st2⟩, h3, h4⟩ := h2
    have hnd := buildParams_nodup conv fconf _ st1 _ _ finfo1 st2 h3 (by simp)
    injection h4 with h4; injection h4 with h4 _; subst h4
    by_cases hs : (!fconf.isSync) = true
    · rw [if_pos hs]; exact hnd
    · rw [if_neg hs]; exact hnd
  · exact appendParam_spec

/-- C8 witness: a function with two `string` parameters gets the distinct
names `str` and `str1`, and appending a third parameter with the same base
name picks candidate index 2 (`str2`), the first unused. -/
theorem C8_distinct_param_names_witness :
    (extractFuncGo (fun st t => ConvertF (defaultHooks Unit) 3 st t)
        (newConverterState ()) "" [strTy, strTy] [] {} =
      .ok ({ fname := "", params := [{ name := "str", ty := "string" },
              { name := "str1", ty := "string" }],
             returns := "Promise<void>" }, newConverterState ())) ∧
    ([ "str", "str1" ] : List String).Nodup ∧
    (∃ m, appendParam { fname := "", params := [{ name := "str", ty := "string" },
              { name := "str1", ty := "string" }], returns := "Promise<void>" }
          { name := "str", ty := "string" } =
        { fname := "", params := [{ name := "str", ty := "string" },
            { name := "str1", ty := "string" },
            { name := cand "str" m, ty := "string" }], returns := "Promise<void>" } ∧
      cand "str" m ∉ (["str", "str1"] : List String) ∧
      (∀ j, j < m → cand "str" j ∈ (["str", "str1"] : List String))) := by
  refine ⟨rfl, ?_, ?_⟩
  · have := C8_distinct_param_names.1 Unit (fun st t => ConvertF (defaultHooks Unit) 3 st t)
      (newConverterState ()) "" [strTy, strTy] [] {}
      { fname := "", params := [{ name := "str", ty := "string" },
          { name := "str1", ty := "string" }], returns := "Promise<void>" }
      (newConverterState ()) rfl
    exact this
  · obtain ⟨m, h1, h2, h3⟩ := C8_distinct_param_names.2
      { fname := "", params := [{ name := "str", ty := "string" },
          { name := "str1", ty := "string" }], returns := "Promise<void>" }
      { name := "str", ty := "string" }
    exact ⟨m, h1, h2, h3⟩

-- Success propagation (C9): a conversion on fully-modelled descriptors
-- cannot reach the unhandled-kind panic.

theorem applyHook_ok {σ : Type} (H : Hooks σ) (t : Ty)
    {res : Except ConvErr (Decl × ConvState σ)} {r : Decl} {st' : ConvState σ}
    (h : res = .ok (r, st')) :
    applyHook H t res = .ok (r, H.onConvert t r st') := by
  rw [h]; rfl

theorem convertGo_ok {σ : Type} {conv : ConvFn σ} {st : ConvState σ} {t : Ty}
    {r : Decl} {st' : ConvState σ} (h : conv st t = .ok (r, st')) :
    convertGo conv st t = .ok ((lookupA st'.types t).getD r, st') := by
  simp only [convertGo]
  rw [h]
  show (match lookupA st'.types t with
    | some uts => (Except.ok (uts, st') : Except ConvErr (Decl × ConvState σ))
    | none => .ok (r, st')) = _
  cases lookupA st'.types t <;> rfl

theorem allTys_mem {f : Ty → Bool} : ∀ {l : List Ty}, allTys f l = true →
    ∀ {x : Ty}, x ∈ l → f x = true := by
  intro l
  induction l with
  | nil => intro _ x hx; simp at hx
  | cons a r ih =>
    intro h x hx
    simp only [allTys, Bool.and_eq_true] at h
    rcases List.mem_cons.mp hx with rfl | hx2
    · exact h.1
    · exact ih h.2 hx2

theorem allFieldTys_mem {f : Ty → Bool} : ∀ {l : List (String × Ty)},
    allFieldTys f l = true → ∀ {x : String × Ty}, x ∈ l → f x.2 = true := by
  intro l
  induction l with
  | nil => intro _ x hx; simp at hx
  | cons a r ih =>
    intro h x hx
    obtain ⟨an, at2⟩ := a
    simp only [allFieldTys, Bool.and_eq_true] at h
    rcases List.mem_cons.mp hx with rfl | hx2
    · exact h.1
    · exact ih h.2 hx2

theorem convertRets_ok {σ : Type} (conv : ConvFn σ) :
    ∀ (outs : List Ty),
      (∀ (st2 : ConvState σ) (u : Ty), u ∈ outs → ∃ r st', conv st2 u = .ok (r, st')) →
      ∀ (st : ConvState σ), ∃ ds st', convertRets conv st outs = .ok (ds, st') := by
  intro outs
  induction outs with
  | nil => intro _ st; exact ⟨[], st, rfl⟩
  | cons out rest ih =>
    intro hall st
    cases rest with
    | nil =>
      by_cases he : implementsError out = true
      · exact ⟨[], st, by simp only [convertRets]; rw [if_pos he]⟩
      · obtain ⟨r, st1, hco⟩ := hall st out (by simp)
        refine ⟨[r], st1, ?_⟩
        simp only [convertRets]
        rw [if_neg he, hco]
        rfl
    | cons b bs =>
      obtain ⟨r, st1, hco⟩ := hall st out (by simp)
      obtain ⟨ds, st2, hrest⟩ := ih (fun st2 u hu => hall st2 u (by simp [hu])) st1
      refine ⟨r :: ds, st2, ?_⟩
      show convertRets conv st (out :: b :: bs) = _
      unfold convertRets
      rw [hco]
      show (do
          let (ds2, st3) ← convertRets conv st1 (b :: bs)
          (.ok (r :: ds2, st3) : Except ConvErr (List Decl × ConvState σ))) = _
      rw [hrest]
      rfl

theorem buildParams_ok {σ : Type} (conv : ConvFn σ) (fconf : FuncConf) :
    ∀ (ins : List Ty),
      (∀ (st2 : ConvState σ) (u : Ty), u ∈ ins → ∃ r st', conv st2 u = .ok (r, st')) →
      ∀ (st : ConvState σ) (i : Nat) (finfo : FuncInfo),
        ∃ finfo' st', buildParams conv fconf st i ins finfo = .ok (finfo', st') := by
  intro ins
  induction ins with
  | nil => intro _ st i finfo; exact ⟨finfo, st, rfl⟩
  | cons inTy rest ih =>
    intro hall st i finfo
    simp only [buildParams]
    by_cases hctx : (inTy.name == "Context" && !fconf.noIgnoreContext) = true
    · rw [if_pos hctx]
      exact ih (fun st2 u hu => hall st2 u (by simp [hu])) st (i + 1) finfo
    · rw [if_neg hctx]
      obtain ⟨r, st1, hco⟩ := hall st inTy (by simp)
      obtain ⟨finfo', st', hrest⟩ :=
        ih (fun st2 u hu => hall st2 u (by simp [hu])) st1 (i + 1)
          (appendParam finfo { name := (if i < fconf.paramNames.length
            then fconf.paramNames.getD i "" else paramNameGo st.paramNames inTy), ty := r })
      refine ⟨finfo', st', ?_⟩
      rw [hco]
      show buildParams conv fconf st1 (i + 1) rest
          (appendParam finfo { name := _, ty := r }) = _
      exact hrest

theorem exists_ok_ite {ε β : Type} (c : Prop) [Decidable c] (x y : β) :
    ∃ b, (if c then (Except.ok x : Except ε β) else .ok y) = .ok b := by
  by_cases hc : c
  · exact ⟨x, if_pos hc⟩
  · exact ⟨y, if_neg hc⟩

theorem exists_ok_bind {ε α β : Type} {m : Except ε α} {g : α → Except ε β}
    (hside : ∀ v, ∃ w, g v = .ok w) (hm : ∃ v, m = .ok v) :
    ∃ w, (m >>= g) = .ok w := by
  obtain ⟨v, hv⟩ := hm
  rw [hv]
  exact hside v

theorem extractFuncGo_ok {σ : Type} (conv : ConvFn σ) (st : ConvState σ) (nm : String)
    (ins outs : List Ty) (fconf : FuncConf)
    (hins : ∀ (st2 : ConvState σ) (u : Ty), u ∈ ins → ∃ r st', conv st2 u = .ok (r, st'))
    (houts : ∀ (st2 : ConvState σ) (u : Ty), u ∈ outs → ∃ r st', conv st2 u = .ok (r, st')) :
    ∃ p, extractFuncGo conv st nm ins outs fconf = .ok p := by
  simp only [extractFuncGo]
  refine exists_ok_bind ?_ ?_
  · rintro ⟨ds, st1⟩
    refine exists_ok_bind ?_ ?_
    · rintro ⟨finfo1, st2⟩
      exact ⟨_, rfl⟩
    · obtain ⟨finfo1, st2, hp⟩ := buildParams_ok conv fconf
        (ins.drop (if fconf.isMethod then 1 else 0))
        (fun st3 u hu => hins st3 u (List.mem_of_mem_drop hu)) st1
        (if fconf.isMethod then 1 else 0) _
      exact ⟨(finfo1, st2), hp⟩
  · obtain ⟨ds, st1, hr⟩ := convertRets_ok conv outs houts st
    exact ⟨(ds, st1), hr⟩

theorem convertFuncGo_ok {σ : Type} (conv : ConvFn σ) (cfgF : Option (Ty → FuncConf))
    (st : ConvState σ) (nm : String) (ins outs : List Ty)
    (hins : ∀ (st2 : ConvState σ) (u : Ty), u ∈ ins → ∃ r st', conv st2 u = .ok (r, st'))
    (houts : ∀ (st2 : ConvState σ) (u : Ty), u ∈ outs → ∃ r st', conv st2 u = .ok (r, st')) :
    ∃ p, convertFuncGo conv cfgF st nm ins outs = .ok p := by
  simp only [convertFuncGo]
  refine exists_ok_bind ?_ (extractFuncGo_ok conv st nm ins outs _ hins houts)
  rintro ⟨finfo, st1⟩
  exact exists_ok_ite _ _ _

theorem extractStructGo_ok {σ : Type} (conv : ConvFn σ) :
    ∀ (fds : List (String × Ty)),
      (∀ (st2 : ConvState σ) (x : String × Ty), x ∈ fds → ∃ r st', conv st2 x.2 = .ok (r, st')) →
      ∀ (st : ConvState σ), ∃ fs st', extractStructGo conv st fds = .ok (fs, st') := by
  intro fds
  induction fds with
  | nil => intro _ st; exact ⟨[], st, rfl⟩
  | cons f rest ih =>
    intro hall st
    obtain ⟨fn, ft⟩ := f
    simp only [extractStructGo]
    by_cases hu : (!isUpper (firstCharString fn)) = true
    · rw [if_pos hu]
      exact ih (fun st2 x hx => hall st2 x (by simp [hx])) st
    · rw [if_neg hu]
      obtain ⟨r, st1, hco⟩ := hall st (fn, ft) (by simp)
      obtain ⟨fs, st2, hrest⟩ := ih (fun st2 x hx => hall st2 x (by simp [hx])) st1
      refine ⟨(fn, r) :: fs, st2, ?_⟩
      rw [hco]
      show (do
          let (fs2, st3) ← extractStructGo conv st1 rest
          (.ok ((fn, r) :: fs2, st3) : Except ConvErr (List (String × Decl) × ConvState σ))) = _
      rw [hrest]
      rfl

theorem convertStructGo_ok {σ : Type} (conv : ConvFn σ) (st : ConvState σ)
    (fds : List (String × Ty))
    (hall : ∀ (st2 : ConvState σ) (x : String × Ty), x ∈ fds →
      ∃ r st', conv st2 x.2 = .ok (r, st')) :
    ∃ p, convertStructGo conv st fds = .ok p := by
  simp only [convertStructGo]
  refine exists_ok_bind ?_ ?_
  · rintro ⟨fs, st1⟩
    exact exists_ok_ite _ _ _
  · obtain ⟨fs, st1, hf⟩ := extractStructGo_ok conv fds hall st
    exact ⟨(fs, st1), hf⟩

theorem ConvertTop_eq {σ : Type} (H : Hooks σ) (st : ConvState σ) (t : Ty) :
    ConvertTop H st t =
      ConvertBody H
        (some (fun st1 u => convertGo (fun st2 v => ConvertF H (Ty.rank t) st2 v) st1 u)) st t :=
  rfl

theorem applyHook_bind_ok {σ : Type} (H : Hooks σ) (t : Ty)
    {x : Except ConvErr (Decl × ConvState σ)} {r : Decl} {st1 : ConvState σ}
    (h : x = .ok (r, st1)) (g : Decl → Decl) :
    applyHook H t (x >>= fun p => .ok (g p.1, p.2)) = .ok (g r, H.onConvert t (g r) st1) := by
  rw [h]
  rfl

theorem ConvertF_ok_of_modeled {σ : Type} (H : Hooks σ) :
    ∀ (fuel : Nat) (t : Ty) (st : ConvState σ), modeledDeepF fuel t = true →
      ∃ r st', ConvertF H fuel st t = .ok (r, st') := by
  intro fuel
  induction fuel with
  | zero => intro t st hm; simp [modeledDeepF] at hm
  | succ fu ih =>
    intro t st hm
    cases hl : lookupA st.types t with
    | some e => exact ⟨e, st, ConvertF_entry H _ st t e hl⟩
    | none =>
      have hgo : ∀ (u : Ty), modeledDeepF fu u = true → ∀ (st2 : ConvState σ),
          ∃ r st', convertGo (fun st3 v => ConvertF H fu st3 v) st2 u = .ok (r, st') := by
        intro u hu st2
        obtain ⟨r, st', hok⟩ := ih u st2 hu
        exact ⟨(lookupA st'.types u).getD r, st', convertGo_ok hok⟩
      cases t with
      | prim k nm => exact ⟨primDecl k, st, ConvertF_alias H _ st k nm hl⟩
      | ptr e =>
        have hme : modeledDeepF fu e = true := by simpa [modeledDeepF] using hm
        obtain ⟨r, st1, hok⟩ := hgo e hme st
        refine ⟨r, H.onConvert (.ptr e) r st1, ?_⟩
        show ConvertBody H (some _) st (.ptr e) = _
        unfold ConvertBody
        rw [hl]
        exact applyHook_ok H (.ptr e) hok
      | chan e =>
        have hme : modeledDeepF fu e = true := by simpa [modeledDeepF] using hm
        obtain ⟨r, st1, hok⟩ := hgo e hme st
        refine ⟨"AsyncIterable<" ++ r ++ ">",
          H.onConvert (.chan e) ("AsyncIterable<" ++ r ++ ">") st1, ?_⟩
        show ConvertBody H (some _) st (.chan e) = _
        unfold ConvertBody
        rw [hl]
        exact applyHook_bind_ok H (.chan e) hok (fun s => "AsyncIterable<" ++ s ++ ">")
      | func nm ins outs =>
        have hmf := hm
        simp only [modeledDeepF, Bool.and_eq_true] at hmf
        have hins : ∀ (st2 : ConvState σ) (u : Ty), u ∈ ins →
            ∃ r st', convertGo (fun st3 v => ConvertF H fu st3 v) st2 u = .ok (r, st') :=
          fun st2 u hu => hgo u (allTys_mem hmf.1 hu) st2
        have houts : ∀ (st2 : ConvState σ) (u : Ty), u ∈ outs →
            ∃ r st', convertGo (fun st3 v => ConvertF H fu st3 v) st2 u = .ok (r, st') :=
          fun st2 u hu => hgo u (allTys_mem hmf.2 hu) st2
        obtain ⟨⟨r, st1⟩, hfn⟩ := convertFuncGo_ok
          (fun st3 v => convertGo (fun st4 w => ConvertF H fu st4 w) st3 v)
          H.configureFunc st nm ins outs hins houts
        refine ⟨r, H.onConvert (.func nm ins outs) r st1, ?_⟩
        show ConvertBody H (some _) st (.func nm ins outs) = _
        unfold ConvertBody
        rw [hl]
        exact applyHook_ok H (.func nm ins outs) hfn
      | struct nm fds =>
        have hmf := hm
        simp only [modeledDeepF] at hmf
        have hall : ∀ (st2 : ConvState σ) (x : String × Ty), x ∈ fds →
            ∃ r st', convertGo (fun st3 v => ConvertF H fu st3 v) st2 x.2 = .ok (r, st') :=
          fun st2 x hx => hgo x.2 (allFieldTys_mem hmf hx) st2
        obtain ⟨⟨r, st1⟩, hfn⟩ := convertStructGo_ok
          (fun st3 v => convertGo (fun st4 w => ConvertF H fu st4 w) st3 v) st fds hall
        refine ⟨r, H.onConvert (.struct nm fds) r st1, ?_⟩
        show ConvertBody H (some _) st (.struct nm fds) = _
        unfold ConvertBody
        rw [hl]
        exact applyHook_ok H (.struct nm fds) hfn
      | slice e =>
        have hme : modeledDeepF fu e = true := by simpa [modeledDeepF] using hm
        obtain ⟨r, st1, hok⟩ := hgo e hme st
        refine ⟨"Array<" ++ r ++ ">", H.onConvert (.slice e) ("Array<" ++ r ++ ">") st1, ?_⟩
        show ConvertBody H (some _) st (.slice e) = _
        unfold ConvertBody
        rw [hl]
        exact applyHook_bind_ok H (.slice e) hok (fun s => "Array<" ++ s ++ ">")
      | array n e => simp [modeledDeepF] at hm
      | map k v =>
        have hme : modeledDeepF fu v = true := by simpa [modeledDeepF] using hm
        obtain ⟨r, st1, hok⟩ := hgo v hme st
        refine ⟨"\x7b [k: string]: " ++ r ++ " \x7d",
          H.onConvert (.map k v) ("\x7b [k: string]: " ++ r ++ " \x7d") st1, ?_⟩
        show ConvertBody H (some _) st (.map k v) = _
        unfold ConvertBody
        rw [hl]
        exact applyHook_bind_ok H (.map k v) hok (fun s => "\x7b [k: string]: " ++ s ++ " \x7d")
      | interface nm isErr =>
        refine ⟨"any", H.onConvert (.interface nm isErr) "any" st, ?_⟩
        show ConvertBody H (some _) st (.interface nm isErr) = _
        unfold ConvertBody
        rw [hl]
        exact applyHook_ok H (.interface nm isErr) rfl
      | complex nm => simp [modeledDeepF] at hm

/-- C9 (amended): `Convert` fails exactly when the dispatch reaches a
descriptor whose kind has no dispatcher case: (i) for every descriptor all
of whose dispatcher-reachable sub-descriptors (pointees, elements, field
types, function parameter and return types, map values) have handled
kinds, `Convert` succeeds and returns a declaration, for any hook and any
table contents; (ii) a non-overridden descriptor of an unhandled kind
(fixed-size array — see the C4 code bug — or a complex kind) fails with
the fatal error identifying the descriptor and its kind. -/
theorem C9_dispatch_totality :
    (∀ (σ : Type) (H : Hooks σ) (st : ConvState σ) (t : Ty),
        modeledDeep t = true → ∃ r st', ConvertTop H st t = .ok (r, st')) ∧
    (∀ (σ : Type) (H : Hooks σ) (st : ConvState σ) (t : Ty),
        lookupA st.types t = none →
        (Ty.kind t = .array ∨ Ty.kind t = .complex128) →
        ConvertTop H st t = .error (.unhandled t (Ty.kind t))) := by
  constructor
  · intro σ H st t hm
    exact ConvertF_ok_of_modeled H (Ty.rank t + 1) t st hm
  · intro σ H st t hl hk
    cases t with
    | array n e =>
      rw [ConvertTop_eq]
      unfold ConvertBody
      rw [hl]
      rfl
    | complex nm =>
      rw [ConvertTop_eq]
      unfold ConvertBody
      rw [hl]
      rfl
    | prim k nm => simp [Ty.kind] at hk
    | ptr e => simp [Ty.kind] at hk
    | chan e => simp [Ty.kind] at hk
    | func nm ins outs => simp [Ty.kind] at hk
    | struct nm fds => simp [Ty.kind] at hk
    | slice e => simp [Ty.kind] at hk
    | map k v => simp [Ty.kind] at hk
    | interface nm isErr => simp [Ty.kind] at hk

/-- C9 counterexample: a struct — a kind squarely inside the claim's
modeled set — whose field has an unmodeled kind makes `Convert` fail (the
nested panic propagates), so "for every descriptor whose kind is in the
modeled set, Convert does not fail" is false as stated. -/
theorem C9_counterexample :
    ConvertTop (defaultHooks Unit) (newConverterState ())
        (.struct "Bad" [("F", .complex "complex128")]) =
      .error (.unhandled (.complex "complex128") .complex128) ∧
    Ty.kind (.struct "Bad" [("F", .complex "complex128")]) = .struct :=
  ⟨rfl, rfl⟩

/-- C9 witness: the fully-modelled `User` struct converts successfully,
and a fresh fixed-size array descriptor fails with the unhandled-kind
error naming the descriptor and its kind. -/
theorem C9_dispatch_totality_witness :
    (∃ r st', ConvertTop (defaultHooks Unit) (newConverterState ()) UserTy = .ok (r, st')) ∧
    ConvertTop (defaultHooks Unit) (newConverterState ()) (.array 3 (.prim .bool "bool")) =
      .error (.unhandled (.array 3 (.prim .bool "bool")) .array) :=
  ⟨C9_dispatch_totality.1 Unit (defaultHooks Unit) (newConverterState ()) UserTy rfl,
   C9_dispatch_totality.2 Unit (defaultHooks Unit) (newConverterState ())
     (.array 3 (.prim .bool "bool")) rfl (Or.inl rfl)⟩

-- Hook-invocation accounting (C6).

theorem tyRank_pos (t : Ty) : 0 < t.rank := by
  cases t <;> simp [Ty.rank]

theorem tyRankList_mem {x : Ty} : ∀ {l : List Ty}, x ∈ l → Ty.rank x < Ty.rankList l := by
  intro l
  induction l with
  | nil => intro h; simp at h
  | cons a r ih =>
    intro h
    rcases List.mem_cons.mp h with rfl | h2
    · simp [Ty.rankList]; omega
    · have := ih h2
      simp [Ty.rankList]
      omega

theorem tyRankFields_mem {x : String × Ty} :
    ∀ {l : List (String × Ty)}, x ∈ l → Ty.rank x.2 < Ty.rankFields l := by
  intro l
  induction l with
  | nil => intro h; simp at h
  | cons a r ih =>
    intro h
    obtain ⟨an, at2⟩ := a
    rcases List.mem_cons.mp h with rfl | h2
    · simp [Ty.rankFields]; omega
    · have := ih h2
      simp [Ty.rankFields]
      omega

theorem convertGo_logs {conv : ConvFn EventLog} (hc : LogsLe conv) :
    LogsLe (convertGo conv) := by
  intro st t r st' h
  simp only [convertGo] at h
  rw [bindE_ok] at h
  obtain ⟨⟨ts, st1⟩, h1, h2⟩ := h
  have := hc st t ts st1 h1
  cases hl : lookupA st1.types t <;> rw [hl] at h2 <;>
    (injection h2 with h2; injection h2 with _ h2; subst h2; exact this)

theorem convertRets_logs {conv : ConvFn EventLog} (hc : LogsLe conv) :
    ∀ (outs : List Ty) (st : ConvState EventLog) (ds : List Decl) (st' : ConvState EventLog),
      convertRets conv st outs = .ok (ds, st') →
      ∃ E, st'.user = st.user ++ E ∧
        ∀ e ∈ E, ∃ x ∈ outs, Ty.rank e.1 ≤ Ty.rank x := by
  intro outs
  induction outs with
  | nil =>
    intro st ds st' h
    simp only [convertRets] at h
    injection h with h; injection h with _ h; subst h
    exact ⟨[], by simp, by simp⟩
  | cons out rest ih =>
    intro st ds st' h
    cases rest with
    | nil =>
      simp only [convertRets] at h
      by_cases he : implementsError out = true
      · rw [if_pos he] at h
        injection h with h; injection h with _ h; subst h
        exact ⟨[], by simp, by simp⟩
      · rw [if_neg he] at h
        rw [bindE_ok] at h
        obtain ⟨⟨d, st1⟩, h1, h2⟩ := h
        injection h2 with h2; injection h2 with _ h2; subst h2
        obtain ⟨E, hE, hB⟩ := hc st out d st1 h1
        exact ⟨E, hE, fun e he2 => ⟨out, by simp, hB e he2⟩⟩
    | cons b bs =>
      simp only [convertRets] at h
      rw [bindE_ok] at h
      obtain ⟨⟨d, st1⟩, h1, h2⟩ := h
      rw [bindE_ok] at h2
      obtain ⟨⟨ds2, st2⟩, h3, h4⟩ := h2
      injection h4 with h4; injection h4 with _ h4; subst h4
      obtain ⟨E1, hE1, hB1⟩ := hc st out d st1 h1
      obtain ⟨E2, hE2, hB2⟩ := ih st1 ds2 st2 h3
      refine ⟨E1 ++ E2, by rw [hE2, hE1, List.append_assoc], ?_⟩
      intro e he2
      rcases List.mem_append.mp he2 with hm | hm
      · exact ⟨out, by simp, hB1 e hm⟩
      · obtain ⟨x, hx, hxe⟩ := hB2 e hm
        exact ⟨x, by simp [hx], hxe⟩

theorem buildParams_logs {conv : ConvFn EventLog} (hc : LogsLe conv) (fconf : FuncConf) :
    ∀ (ins : List Ty) (st : ConvState EventLog) (i : Nat) (finfo finfo' : FuncInfo)
      (st' : ConvState EventLog),
      buildParams conv fconf st i ins finfo = .ok (finfo', st') →
      ∃ E, st'.user = st.user ++ E ∧
        ∀ e ∈ E, ∃ x ∈ ins, Ty.rank e.1 ≤ Ty.rank x := by
  intro ins
  induction ins with
  | nil =>
    intro st i finfo finfo' st' h
    simp only [buildParams] at h
    injection h with h; injection h with _ h; subst h
    exact ⟨[], by simp, by simp⟩
  | cons inTy rest ih =>
    intro st i finfo finfo' st' h
    simp only [buildParams] at h
    by_cases hctx : (inTy.name == "Context" && !fconf.noIgnoreContext) = true
    · rw [if_pos hctx] at h
      obtain ⟨E, hE, hB⟩ := ih st (i + 1) finfo finfo' st' h
      refine ⟨E, hE, ?_⟩
      intro e he2
      obtain ⟨x, hx, hxe⟩ := hB e he2
      exact ⟨x, by simp [hx], hxe⟩
    · rw [if_neg hctx] at h
      rw [bindE_ok] at h
      obtain ⟨⟨d, st1⟩, h1, h2⟩ := h
      obtain ⟨E1, hE1, hB1⟩ := hc st inTy d st1 h1
      obtain ⟨E2, hE2, hB2⟩ := ih st1 (i + 1) _ finfo' st' h2
      refine ⟨E1 ++ E2, by rw [hE2, hE1, List.append_assoc], ?_⟩
      intro e he2
      rcases List.mem_append.mp he2 with hm | hm
      · exact ⟨inTy, by simp, hB1 e hm⟩
      · obtain ⟨x, hx, hxe⟩ := hB2 e hm
        exact ⟨x, by simp [hx], hxe⟩

theorem extractStructGo_logs {conv : ConvFn EventLog} (hc : LogsLe conv) :
    ∀ (fds : List (String × Ty)) (st : ConvState EventLog)
      (fs : List (String × Decl)) (st' : ConvState EventLog),
      extractStructGo conv st fds = .ok (fs, st') →
      ∃ E, st'.user = st.user ++ E ∧
        ∀ e ∈ E, ∃ x ∈ fds, Ty.rank e.1 ≤ Ty.rank x.2 := by
  intro fds
  induction fds with
  | nil =>
    intro st fs st' h
    simp only [extractStructGo] at h
    injection h with h; injection h with _ h; subst h
    exact ⟨[], by simp, by simp⟩
  | cons f rest ih =>
    intro st fs st' h
    obtain ⟨fn, ft⟩ := f
    simp only [extractStructGo] at h
    by_cases hu : (!isUpper (firstCharString fn)) = true
    · rw [if_pos hu] at h
      obtain ⟨E, hE, hB⟩ := ih st fs st' h
      refine ⟨E, hE, ?_⟩
      intro e he2
      obtain ⟨x, hx, hxe⟩ := hB e he2
      exact ⟨x, by simp [hx], hxe⟩
    · rw [if_neg hu] at h
      rw [bindE_ok] at h
      obtain ⟨⟨d, st1⟩, h1, h2⟩ := h
      rw [bindE_ok] at h2
      obtain ⟨⟨fs2, st2⟩, h3, h4⟩ := h2
      injection h4 with h4; injection h4 with _ h4; subst h4
      obtain ⟨E1, hE1, hB1⟩ := hc st ft d st1 h1
      obtain ⟨E2, hE2, hB2⟩ := ih st1 fs2 st2 h3
      refine ⟨E1 ++ E2, by rw [hE2, hE1, List.append_assoc], ?_⟩
      intro e he2
      rcases List.mem_append.mp he2 with hm | hm
      · exact ⟨(fn, ft), by simp, hB1 e hm⟩
      · obtain ⟨x, hx, hxe⟩ := hB2 e hm
        exact ⟨x, by simp [hx], hxe⟩

theorem extractFuncGo_logs {conv : ConvFn EventLog} (hc : LogsLe conv)
    (st : ConvState EventLog) (nm : String) (ins outs : List Ty) (fconf : FuncConf)
    (finfo : FuncInfo) (st' : ConvState EventLog)
    (h : extractFuncGo conv st nm ins outs fconf = .ok (finfo, st')) :
    ∃ E, st'.user = st.user ++ E ∧
      ∀ e ∈ E, ∃ x, (x ∈ ins ∨ x ∈ outs) ∧ Ty.rank e.1 ≤ Ty.rank x := by
  simp only [extractFuncGo] at h
  rw [bindE_ok] at h
  obtain ⟨⟨rets, st1⟩, h1, h2⟩ := h
  rw [bindE_ok] at h2
  obtain ⟨⟨finfo1, st2⟩, h3, h4⟩ := h2
  injection h4 with h4; injection h4 with _ h4; subst h4
  obtain ⟨E1, hE1, hB1⟩ := convertRets_logs hc outs st rets st1 h1
  obtain ⟨E2, hE2, hB2⟩ := buildParams_logs hc fconf _ st1 _ _ finfo1 st2 h3
  refine ⟨E1 ++ E2, by rw [hE2, hE1, List.append_assoc], ?_⟩
  intro e he2
  rcases List.mem_append.mp he2 with hm | hm
  · obtain ⟨x, hx, hxe⟩ := hB1 e hm
    exact ⟨x, Or.inr hx, hxe⟩
  · obtain ⟨x, hx, hxe⟩ := hB2 e hm
    exact ⟨x, Or.inl (List.mem_of_mem_drop hx), hxe⟩

theorem convertFuncGo_logs {conv : ConvFn EventLog} (hc : LogsLe conv)
    (cfgF : Option (Ty → FuncConf)) (st : ConvState EventLog) (nm : String)
    (ins outs : List Ty) (r : Decl) (st' : ConvState EventLog)
    (h : convertFuncGo conv cfgF st nm ins outs = .ok (r, st')) :
    ∃ E, st'.user = st.user ++ E ∧
      ∀ e ∈ E, ∃ x, (x ∈ ins ∨ x ∈ outs) ∧ Ty.rank e.1 ≤ Ty.rank x := by
  cases cfgF with
  | none =>
    simp only [convertFuncGo] at h
    rw [bindE_ok] at h
    obtain ⟨⟨finfo, st1⟩, h1, h2⟩ := h
    have e1 := extractFuncGo_logs hc st nm ins outs _ finfo st1 h1
    simp only [show ({} : FuncConf).isMethod = false from rfl, Bool.false_eq_true,
      if_false] at h2
    injection h2 with h2; injection h2 with _ h2; subst h2; exact e1
  | some f =>
    simp only [convertFuncGo] at h
    rw [bindE_ok] at h
    obtain ⟨⟨finfo, st1⟩, h1, h2⟩ := h
    have e1 := extractFuncGo_logs hc st nm ins outs _ finfo st1 h1
    by_cases hm : (f (Ty.func nm ins outs)).isMethod = true
    · rw [if_pos hm] at h2
      injection h2 with h2; injection h2 with _ h2; subst h2; exact e1
    · rw [if_neg hm] at h2
      injection h2 with h2; injection h2 with _ h2; subst h2; exact e1

theorem convertStructGo_logs {conv : ConvFn EventLog} (hc : LogsLe conv)
    (st : ConvState EventLog) (fds : List (String × Ty)) (r : Decl)
    (st' : ConvState EventLog)
    (h : convertStructGo conv st fds = .ok (r, st')) :
    ∃ E, st'.user = st.user ++ E ∧
      ∀ e ∈ E, ∃ x ∈ fds, Ty.rank e.1 ≤ Ty.rank x.2 := by
  simp only [convertStructGo] at h
  rw [bindE_ok] at h
  obtain ⟨⟨fs, st1⟩, h1, h2⟩ := h
  have e1 := extractStructGo_logs hc fds st fs st1 h1
  by_cases hz : fs.length = 0
  · rw [if_pos hz] at h2
    injection h2 with h2; injection h2 with _ h2; subst h2; exact e1
  · rw [if_neg hz] at h2
    injection h2 with h2; injection h2 with _ h2; subst h2; exact e1

theorem ConvertBody_find {σ : Type} (H : Hooks σ) (deeper : Option (ConvFn σ))
    (st : ConvState σ) (t : Ty) (pr : Ty × Decl)
    (hl : lookupA st.types t = none)
    (hp : primitivesList.find? (fun p => decide (p.1.kind = t.kind)) = some pr) :
    ConvertBody H deeper st t = .ok (pr.2, st) := by
  unfold ConvertBody
  rw [hl, hp]

theorem ConvertBody_logs_strict {conv : ConvFn EventLog} (hc : LogsLe conv)
    (st : ConvState EventLog) (t : Ty) (r : Decl) (st' : ConvState EventLog)
    (hl : lookupA st.types t = none)
    (hp : primitivesList.find? (fun p => decide (p.1.kind = t.kind)) = none)
    (h : ConvertBody loggerHooks (some conv) st t = .ok (r, st')) :
    ∃ E, st'.user = st.user ++ E ++ [(t, r)] ∧ ∀ e ∈ E, Ty.rank e.1 < Ty.rank t := by
  unfold ConvertBody at h
  rw [hl, hp] at h
  have hdisp : ∀ (res : Except ConvErr (Decl × ConvState EventLog)),
      applyHook loggerHooks t res = .ok (r, st') →
      (∀ d1 s1, res = .ok (d1, s1) →
        ∃ E, s1.user = st.user ++ E ∧ ∀ e ∈ E, Ty.rank e.1 < Ty.rank t) →
      ∃ E, st'.user = st.user ++ E ++ [(t, r)] ∧ ∀ e ∈ E, Ty.rank e.1 < Ty.rank t := by
    intro res hres hok
    cases res with
    | error e => simp [applyHook] at hres
    | ok p =>
      obtain ⟨d1, s1⟩ := p
      simp only [applyHook] at hres
      injection hres with hres
      injection hres with hra hrb
      subst hra
      obtain ⟨E, hE, hB⟩ := hok d1 s1 rfl
      refine ⟨E, ?_, hB⟩
      rw [← hrb]
      show (s1.user ++ [(t, d1)]) = _
      rw [hE, List.append_assoc]
  cases t with
  | prim k nm => exact absurd hp (by cases k <;> simp [primitivesList, Ty.kind])
  | ptr e =>
    refine hdisp _ h ?_
    intro d1 s1 hres
    obtain ⟨E, hE, hB⟩ := hc st e d1 s1 hres
    refine ⟨E, hE, fun ev hev => ?_⟩
    have := hB ev hev
    simp only [Ty.rank]
    omega
  | chan e =>
    refine hdisp _ h ?_
    intro d1 s1 hres
    rw [bindE_ok] at hres
    obtain ⟨⟨d2, s2⟩, h1, h2⟩ := hres
    injection h2 with h2; injection h2 with _ h2; subst h2
    obtain ⟨E, hE, hB⟩ := hc st e d2 s2 h1
    refine ⟨E, hE, fun ev hev => ?_⟩
    have := hB ev hev
    simp only [Ty.rank]
    omega
  | func nm ins outs =>
    refine hdisp _ h ?_
    intro d1 s1 hres
    obtain ⟨E, hE, hB⟩ := convertFuncGo_logs hc loggerHooks.configureFunc st nm ins outs d1 s1 hres
    refine ⟨E, hE, fun ev hev => ?_⟩
    obtain ⟨x, hx, hxe⟩ := hB ev hev
    rcases hx with hx | hx
    · have := tyRankList_mem hx
      simp only [Ty.rank]
      omega
    · have := tyRankList_mem hx
      simp only [Ty.rank]
      omega
  | struct nm fds =>
    refine hdisp _ h ?_
    intro d1 s1 hres
    obtain ⟨E, hE, hB⟩ := convertStructGo_logs hc st fds d1 s1 hres
    refine ⟨E, hE, fun ev hev => ?_⟩
    obtain ⟨x, hx, hxe⟩ := hB ev hev
    have := tyRankFields_mem hx
    simp only [Ty.rank]
    omega
  | slice e =>
    refine hdisp _ h ?_
    intro d1 s1 hres
    rw [bindE_ok] at hres
    obtain ⟨⟨d2, s2⟩, h1, h2⟩ := hres
    injection h2 with h2; injection h2 with _ h2; subst h2
    obtain ⟨E, hE, hB⟩ := hc st e d2 s2 h1
    refine ⟨E, hE, fun ev hev => ?_⟩
    have := hB ev hev
    simp only [Ty.rank]
    omega
  | array n e => simp [applyHook] at h
  | map k v =>
    refine hdisp _ h ?_
    intro d1 s1 hres
    rw [bindE_ok] at hres
    obtain ⟨⟨d2, s2⟩, h1, h2⟩ := hres
    injection h2 with h2; injection h2 with _ h2; subst h2
    obtain ⟨E, hE, hB⟩ := hc st v d2 s2 h1
    refine ⟨E, hE, fun ev hev => ?_⟩
    have := hB ev hev
    simp only [Ty.rank]
    omega
  | interface nm isErr =>
    refine hdisp _ h ?_
    intro d1 s1 hres
    injection hres with hres; injection hres with _ hres; subst hres
    exact ⟨[], by simp, by simp⟩
  | complex nm => simp [applyHook] at h

theorem ConvertF_logs : ∀ (fuel : Nat), LogsLe (fun st t => ConvertF loggerHooks fuel st t) := by
  intro fuel
  induction fuel with
  | zero =>
    intro st t r st' h
    show ∃ E, _
    unfold ConvertF ConvertBody at h
    cases hl : lookupA st.types t <;> rw [hl] at h
    case some e =>
      injection h with h; injection h with _ h; subst h
      exact ⟨[], by simp, by simp⟩
    cases hp : primitivesList.find? (fun p => decide (p.1.kind = t.kind)) <;> rw [hp] at h
    case some p =>
      injection h with h; injection h with _ h; subst h
      exact ⟨[], by simp, by simp⟩
    exact absurd h (by simp)
  | succ fu ih =>
    intro st t r st' h0
    have h : ConvertF loggerHooks (fu + 1) st t = .ok (r, st') := h0
    cases hl : lookupA st.types t with
    | some e =>
      rw [ConvertF_entry loggerHooks (fu + 1) st t e hl] at h
      injection h with h; injection h with ha hb
      subst ha; subst hb
      exact ⟨[], by simp, by simp⟩
    | none =>
      cases hp : primitivesList.find? (fun p => decide (p.1.kind = t.kind)) with
      | some pr =>
        have hb := ConvertBody_find loggerHooks
          (some (fun st1 u => convertGo (fun st2 v => ConvertF loggerHooks fu st2 v) st1 u))
          st t pr hl hp
        have : ConvertF loggerHooks (fu + 1) st t = .ok (pr.2, st) := hb
        rw [this] at h
        injection h with h; injection h with ha hb2
        subst ha; subst hb2
        exact ⟨[], by simp, by simp⟩
      | none =>
        obtain ⟨E, hE, hB⟩ := ConvertBody_logs_strict (convertGo_logs ih) st t r st' hl hp h
        refine ⟨E ++ [(t, r)], by rw [hE, List.append_assoc], ?_⟩
        intro e he
        rcases List.mem_append.mp he with hm | hm
        · exact Nat.le_of_lt (hB e hm)
        · simp only [List.mem_singleton] at hm
          rw [hm]

/-- C6 (amended): the override path and the primitive-kind alias path
return without invoking the discovery hook (in the source both early
returns precede the `defer` that registers the hook call) — so "invoked
after every non-overridden conversion" fails for fresh primitive-kind
aliases; for every conversion that reaches dispatch (no table entry and no
primitive-kind match) and returns a declaration, the hook is invoked
exactly once with that descriptor and the returned declaration: the log
gains the event `(t, r)` last, and every other new event concerns a
strictly smaller (hence different) descriptor. -/
theorem C6_hook_invocation :
    (∀ (st : ConvState EventLog) (t : Ty) (e : Decl),
        lookupA st.types t = some e →
        ConvertTop loggerHooks st t = .ok (e, st)) ∧
    (∀ (st : ConvState EventLog) (k : PrimKind) (nm : String),
        lookupA st.types (.prim k nm) = none →
        ConvertTop loggerHooks st (.prim k nm) = .ok (primDecl k, st)) ∧
    (∀ (st : ConvState EventLog) (t : Ty) (r : Decl) (st' : ConvState EventLog),
        lookupA st.types t = none →
        primitivesList.find? (fun p => decide (p.1.kind = t.kind)) = none →
        ConvertTop loggerHooks st t = .ok (r, st') →
        ∃ E, st'.user = st.user ++ E ++ [(t, r)] ∧ ∀ e ∈ E, e.1 ≠ t) := by
  refine ⟨fun st t e h => ConvertF_entry _ _ st t e h,
    fun st k nm h => ConvertF_alias _ _ st k nm h, ?_⟩
  intro st t r st' hl hp h
  have h2 : ConvertBody loggerHooks
      (some (fun st1 u => convertGo (fun st2 v => ConvertF loggerHooks (Ty.rank t) st2 v) st1 u))
      st t = .ok (r, st') := by
    rw [← ConvertTop_eq]
    exact h
  obtain ⟨E, hE, hB⟩ := ConvertBody_logs_strict
    (convertGo_logs (ConvertF_logs (Ty.rank t))) st t r st' hl hp h2
  refine ⟨E, hE, fun e he => ?_⟩
  intro heq
  have hlt := hB e he
  rw [heq] at hlt
  exact Nat.lt_irrefl _ hlt

/-- C6 counterexample: a fresh defined alias of `string` kind has no
override-table entry, yet `Convert` returns its declaration without
invoking the discovery hook — the instrumented log stays empty, because
the alias early-return precedes the `defer` that would register the hook
call. -/
theorem C6_counterexample :
    ConvertTop loggerHooks { types := [], paramNames := [], user := [] }
        (.prim .string "MyStr") =
      .ok ("string", { types := [], paramNames := [], user := [] }) ∧
    lookupA ([] : List (Ty × Decl)) (.prim .string "MyStr") = none :=
  ⟨rfl, rfl⟩

/-- C6 witness: converting the `User` struct with the default tables logs
exactly the event `(User, declaration)` — the `string` field hits the
override table, so it contributes no event. -/
theorem C6_hook_invocation_witness :
    ∃ E, ({ newConverterState ([] : EventLog) with
        user := [(UserTy, "\x7b Name: string \x7d")] } : ConvState EventLog).user =
      (newConverterState ([] : EventLog)).user ++ E ++ [(UserTy, "\x7b Name: string \x7d")] ∧
      ∀ e ∈ E, e.1 ≠ UserTy :=
  C6_hook_invocation.2.2 (newConverterState []) UserTy "\x7b Name: string \x7d"
    { newConverterState ([] : EventLog) with user := [(UserTy, "\x7b Name: string \x7d")] }
    rfl rfl rfl

-- Hook-override visibility (C2): sequential decomposition of field and
-- parameter processing, entry persistence, and the later-reference and
-- second-lookup rules.

theorem extractStructGo_split {σ : Type} (conv : ConvFn σ) :
    ∀ (fs1 fs2 : List (String × Ty)) (st : ConvState σ)
      (out : List (String × Decl)) (st' : ConvState σ),
      extractStructGo conv st (fs1 ++ fs2) = .ok (out, st') →
      ∃ ds1 st1 ds2, extractStructGo conv st fs1 = .ok (ds1, st1) ∧
        extractStructGo conv st1 fs2 = .ok (ds2, st') ∧ out = ds1 ++ ds2 := by
  intro fs1
  induction fs1 with
  | nil =>
    intro fs2 st out st' h
    rw [List.nil_append] at h
    exact ⟨[], st, out, rfl, h, by simp⟩
  | cons f fs1x ih =>
    intro fs2 st out st' h
    obtain ⟨fn, ft⟩ := f
    rw [List.cons_append] at h
    simp only [extractStructGo] at h
    by_cases hu : (!isUpper (firstCharString fn)) = true
    · rw [if_pos hu] at h
      obtain ⟨ds1, st1, ds2, h1, h2, he⟩ := ih fs2 st out st' h
      refine ⟨ds1, st1, ds2, ?_, h2, he⟩
      simp only [extractStructGo]
      rw [if_pos hu]
      exact h1
    · rw [if_neg hu] at h
      rw [bindE_ok] at h
      obtain ⟨⟨d, st1⟩, hc, h2⟩ := h
      rw [bindE_ok] at h2
      obtain ⟨⟨fsAll, st2⟩, h3, h4⟩ := h2
      injection h4 with h4; injection h4 with h4a h4b
      subst h4a; subst h4b
      obtain ⟨ds1, stm, ds2, g1, g2, ge⟩ := ih fs2 st1 fsAll st2 h3
      refine ⟨(fn, d) :: ds1, stm, ds2, ?_, g2, by simp [ge]⟩
      simp only [extractStructGo]
      rw [if_neg hu, hc]
      show (do
          let (fs, st3) ← extractStructGo conv st1 fs1x
          (.ok ((fn, d) :: fs, st3) : Except ConvErr (List (String × Decl) × ConvState σ))) = _
      rw [g1]
      rfl

theorem buildParams_split {σ : Type} (conv : ConvFn σ) (fconf : FuncConf) :
    ∀ (ps1 ps2 : List Ty) (st : ConvState σ) (i : Nat) (finfo finfo' : FuncInfo)
      (st' : ConvState σ),
      buildParams conv fconf st i (ps1 ++ ps2) finfo = .ok (finfo', st') →
      ∃ finfo1 st1, buildParams conv fconf st i ps1 finfo = .ok (finfo1, st1) ∧
        buildParams conv fconf st1 (i + ps1.length) ps2 finfo1 = .ok (finfo', st') := by
  intro ps1
  induction ps1 with
  | nil =>
    intro ps2 st i finfo finfo' st' h
    rw [List.nil_append] at h
    exact ⟨finfo, st, rfl, by simpa using h⟩
  | cons inTy rest ih =>
    intro ps2 st i finfo finfo' st' h
    rw [List.cons_append] at h
    simp only [buildParams] at h
    by_cases hctx : (inTy.name == "Context" && !fconf.noIgnoreContext) = true
    · rw [if_pos hctx] at h
      obtain ⟨finfo1, st1, h1, h2⟩ := ih ps2 st (i + 1) finfo finfo' st' h
      refine ⟨finfo1, st1, ?_, ?_⟩
      · simp only [buildParams]
        rw [if_pos hctx]
        exact h1
      · rw [show i + (inTy :: rest).length = i + 1 + rest.length from by simp; omega]
        exact h2
    · rw [if_neg hctx] at h
      rw [bindE_ok] at h
      obtain ⟨⟨d, st1⟩, hc, h2⟩ := h
      obtain ⟨finfo1, stm, g1, g2⟩ := ih ps2 st1 (i + 1) _ finfo' st' h2
      refine ⟨finfo1, stm, ?_, ?_⟩
      · simp only [buildParams]
        rw [if_neg hctx, hc]
        exact g1
      · rw [show i + (inTy :: rest).length = i + 1 + rest.length from by simp; omega]
        exact g2

theorem convertGo_keepsP {σ : Type} {P : List (Ty × Decl) → Prop} {conv : ConvFn σ}
    (hc : KeepsTypesP P conv) : KeepsTypesP P (convertGo conv) := by
  intro st t r st' h hP
  simp only [convertGo] at h
  rw [bindE_ok] at h
  obtain ⟨⟨ts, st1⟩, h1, h2⟩ := h
  have := hc st t ts st1 h1 hP
  cases hl : lookupA st1.types t <;> rw [hl] at h2 <;>
    (injection h2 with h2; injection h2 with _ h2; subst h2; exact this)

theorem convertRets_keepsP {σ : Type} {P : List (Ty × Decl) → Prop} {conv : ConvFn σ}
    (hc : KeepsTypesP P conv) :
    ∀ (outs : List Ty) (st : ConvState σ) (ds : List Decl) (st' : ConvState σ),
      convertRets conv st outs = .ok (ds, st') → P st.types → P st'.types := by
  intro outs
  induction outs with
  | nil =>
    intro st ds st' h hP
    simp only [convertRets] at h
    injection h with h; injection h with _ h; subst h; exact hP
  | cons out rest ih =>
    intro st ds st' h hP
    cases rest with
    | nil =>
      simp only [convertRets] at h
      by_cases he : implementsError out = true
      · rw [if_pos he] at h
        injection h with h; injection h with _ h; subst h; exact hP
      · rw [if_neg he] at h
        rw [bindE_ok] at h
        obtain ⟨⟨d, st1⟩, h1, h2⟩ := h
        injection h2 with h2; injection h2 with _ h2; subst h2
        exact hc st out d st1 h1 hP
    | cons b bs =>
      simp only [convertRets] at h
      rw [bindE_ok] at h
      obtain ⟨⟨d, st1⟩, h1, h2⟩ := h
      rw [bindE_ok] at h2
      obtain ⟨⟨ds2, st2⟩, h3, h4⟩ := h2
      injection h4 with h4; injection h4 with _ h4; subst h4
      exact ih st1 ds2 st2 h3 (hc st out d st1 h1 hP)

theorem buildParams_keepsP {σ : Type} {P : List (Ty × Decl) → Prop} {conv : ConvFn σ}
    (hc : KeepsTypesP P conv) (fconf : FuncConf) :
    ∀ (ins : List Ty) (st : ConvState σ) (i : Nat) (finfo finfo' : FuncInfo)
      (st' : ConvState σ),
      buildParams conv fconf st i ins finfo = .ok (finfo', st') → P st.types → P st'.types := by
  intro ins
  induction ins with
  | nil =>
    intro st i finfo finfo' st' h hP
    simp only [buildParams] at h
    injection h with h; injection h with _ h; subst h; exact hP
  | cons inTy rest ih =>
    intro st i finfo finfo' st' h hP
    simp only [buildParams] at h
    by_cases hctx : (inTy.name == "Context" && !fconf.noIgnoreContext) = true
    · rw [if_pos hctx] at h
      exact ih st (i + 1) finfo finfo' st' h hP
    · rw [if_neg hctx] at h
      rw [bindE_ok] at h
      obtain ⟨⟨d, st1⟩, h1, h2⟩ := h
      exact ih st1 (i + 1) _ finfo' st' h2 (hc st inTy d st1 h1 hP)

theorem extractFuncGo_keepsP {σ : Type} {P : List (Ty × Decl) → Prop} {conv : ConvFn σ}
    (hc : KeepsTypesP P conv) (st : ConvState σ) (nm : String) (ins outs : List Ty)
    (fconf : FuncConf) (finfo : FuncInfo) (st' : ConvState σ)
    (h : extractFuncGo conv st nm ins outs fconf = .ok (finfo, st')) :
    P st.types → P st'.types := by
  intro hP
  simp only [extractFuncGo] at h
  rw [bindE_ok] at h
  obtain ⟨⟨rets, st1⟩, h1, h2⟩ := h
  rw [bindE_ok] at h2
  obtain ⟨⟨finfo1, st2⟩, h3, h4⟩ := h2
  injection h4 with h4; injection h4 with _ h4; subst h4
  exact buildParams_keepsP hc fconf _ st1 _ _ finfo1 st2 h3
    (convertRets_keepsP hc outs st rets st1 h1 hP)

theorem convertFuncGo_keepsP {σ : Type} {P : List (Ty × Decl) → Prop} {conv : ConvFn σ}
    (hc : KeepsTypesP P conv) (cfgF : Option (Ty → FuncConf)) (st : ConvState σ)
    (nm : String) (ins outs : List Ty) (r : Decl) (st' : ConvState σ)
    (h : convertFuncGo conv cfgF st nm ins outs = .ok (r, st')) :
    P st.types → P st'.types := by
  intro hP
  cases cfgF with
  | none =>
    simp only [convertFuncGo] at h
    rw [bindE_ok] at h
    obtain ⟨⟨finfo, st1⟩, h1, h2⟩ := h
    have e1 := extractFuncGo_keepsP hc st nm ins outs _ finfo st1 h1 hP
    simp only [show ({} : FuncConf).isMethod = false from rfl, Bool.false_eq_true,
      if_false] at h2
    injection h2 with h2; injection h2 with _ h2; subst h2; exact e1
  | some f =>
    simp only [convertFuncGo] at h
    rw [bindE_ok] at h
    obtain ⟨⟨finfo, st1⟩, h1, h2⟩ := h
    have e1 := extractFuncGo_keepsP hc st nm ins outs _ finfo st1 h1 hP
    by_cases hm : (f (Ty.func nm ins outs)).isMethod = true
    · rw [if_pos hm] at h2
      injection h2 with h2; injection h2 with _ h2; subst h2; exact e1
    · rw [if_neg hm] at h2
      injection h2 with h2; injection h2 with _ h2; subst h2; exact e1

theorem extractStructGo_keepsP {σ : Type} {P : List (Ty × Decl) → Prop} {conv : ConvFn σ}
    (hc : KeepsTypesP P conv) :
    ∀ (fields : List (String × Ty)) (st : ConvState σ)
      (fs : List (String × Decl)) (st' : ConvState σ),
      extractStructGo conv st fields = .ok (fs, st') → P st.types → P st'.types := by
  intro fields
  induction fields with
  | nil =>
    intro st fs st' h hP
    simp only [extractStructGo] at h
    injection h with h; injection h with _ h; subst h; exact hP
  | cons f rest ih =>
    intro st fs st' h hP
    obtain ⟨fn, ft⟩ := f
    simp only [extractStructGo] at h
    by_cases hu : (!isUpper (firstCharString fn)) = true
    · rw [if_pos hu] at h
      exact ih st fs st' h hP
    · rw [if_neg hu] at h
      rw [bindE_ok] at h
      obtain ⟨⟨d, st1⟩, h1, h2⟩ := h
      rw [bindE_ok] at h2
      obtain ⟨⟨fs2, st2⟩, h3, h4⟩ := h2
      injection h4 with h4; injection h4 with _ h4; subst h4
      exact ih st1 fs2 st2 h3 (hc st ft d st1 h1 hP)

theorem convertStructGo_keepsP {σ : Type} {P : List (Ty × Decl) → Prop} {conv : ConvFn σ}
    (hc : KeepsTypesP P conv) (st : ConvState σ) (fields : List (String × Ty))
    (r : Decl) (st' : ConvState σ)
    (h : convertStructGo conv st fields = .ok (r, st')) :
    P st.types → P st'.types := by
  intro hP
  simp only [convertStructGo] at h
  rw [bindE_ok] at h
  obtain ⟨⟨fs, st1⟩, h1, h2⟩ := h
  have e1 := extractStructGo_keepsP hc fields st fs st1 h1 hP
  by_cases hz : fs.length = 0
  · rw [if_pos hz] at h2
    injection h2 with h2; injection h2 with _ h2; subst h2; exact e1
  · rw [if_neg hz] at h2
    injection h2 with h2; injection h2 with _ h2; subst h2; exact e1

theorem ConvertBody_keepsP {σ : Type} {P : List (Ty × Decl) → Prop} {H : Hooks σ}
    {conv : ConvFn σ} (hH : HookKeepsTypesP P H) (hc : KeepsTypesP P conv) :
    ∀ (st : ConvState σ) (t : Ty) (r : Decl) (st' : ConvState σ),
      ConvertBody H (some conv) st t = .ok (r, st') → P st.types → P st'.types := by
  intro st t r st' h hP
  unfold ConvertBody at h
  cases hl : lookupA st.types t <;> rw [hl] at h
  case some e =>
    injection h with h; injection h with _ h; subst h; exact hP
  cases hp : primitivesList.find? (fun p => decide (p.1.kind = t.kind)) <;> rw [hp] at h
  case some p =>
    injection h with h; injection h with _ h; subst h; exact hP
  have hdisp :
      ∀ (res : Except ConvErr (Decl × ConvState σ)),
        applyHook H t res = .ok (r, st') →
        (∀ d1 s1, res = .ok (d1, s1) → P s1.types) →
        P st'.types := by
    intro res hres hok
    cases res with
    | error e => simp [applyHook] at hres
    | ok p =>
      obtain ⟨d1, s1⟩ := p
      simp only [applyHook] at hres
      injection hres with hres; injection hres with _ hres; subst hres
      exact hH t d1 s1 (hok d1 s1 rfl)
  cases t with
  | prim k nm => exact absurd hp (by cases k <;> simp [primitivesList, Ty.kind])
  | ptr e =>
    refine hdisp _ h ?_
    intro d1 s1 hres
    exact hc st e d1 s1 hres hP
  | chan e =>
    refine hdisp _ h ?_
    intro d1 s1 hres
    rw [bindE_ok] at hres
    obtain ⟨⟨d2, s2⟩, h1, h2⟩ := hres
    injection h2 with h2; injection h2 with _ h2; subst h2
    exact hc st e d2 s2 h1 hP
  | func nm ins outs =>
    refine hdisp _ h ?_
    intro d1 s1 hres
    exact convertFuncGo_keepsP hc H.configureFunc st nm ins outs d1 s1 hres hP
  | struct nm fields =>
    refine hdisp _ h ?_
    intro d1 s1 hres
    exact convertStructGo_keepsP hc st fields d1 s1 hres hP
  | slice e =>
    refine hdisp _ h ?_
    intro d1 s1 hres
    rw [bindE_ok] at hres
    obtain ⟨⟨d2, s2⟩, h1, h2⟩ := hres
    injection h2 with h2; injection h2 with _ h2; subst h2
    exact hc st e d2 s2 h1 hP
  | array n e => simp [applyHook] at h
  | map k v =>
    refine hdisp _ h ?_
    intro d1 s1 hres
    rw [bindE_ok] at hres
    obtain ⟨⟨d2, s2⟩, h1, h2⟩ := hres
    injection h2 with h2; injection h2 with _ h2; subst h2
    exact hc st v d2 s2 h1 hP
  | interface nm isErr =>
    refine hdisp _ h ?_
    intro d1 s1 hres
    injection hres with hres; injection hres with _ hres; subst hres
    exact hP
  | complex nm => simp [applyHook] at h

theorem ConvertF_keepsP {σ : Type} {P : List (Ty × Decl) → Prop} {H : Hooks σ}
    (hH : HookKeepsTypesP P H) :
    ∀ (fuel : Nat), KeepsTypesP P (fun st t => ConvertF H fuel st t) := by
  intro fuel
  induction fuel with
  | zero =>
    intro st t r st' h hP
    unfold ConvertF ConvertBody at h
    cases hl : lookupA st.types t <;> rw [hl] at h
    case some e =>
      injection h with h; injection h with _ h; subst h; exact hP
    cases hp : primitivesList.find? (fun p => decide (p.1.kind = t.kind)) <;> rw [hp] at h
    case some p =>
      injection h with h; injection h with _ h; subst h; exact hP
    exact absurd h (by simp)
  | succ fuel ih =>
    intro st t r st' h hP
    exact ConvertBody_keepsP hH (convertGo_keepsP ih) st t r st' h hP

/-- C2: discovery-hook override visibility, universally.  (i) Struct
fields are processed sequentially: for every conversion function, state
and field split, the outer expansion is the prefix expansion — computed
from the pre-state alone, hence unaffected by anything installed later —
followed by the suffix expansion computed from the intermediate state the
prefix left (which contains whatever overrides the hook installed while
the earlier fields were processed).  (ii) The same sequential
decomposition for function parameter lists.  (iii) For every hook whose
`OnConvert` preserves the table entry `(T, ov)`, the entry survives any
successful conversion performed while the outer call is in progress, so
it is still present at every later reference.  (iv) Every later reference
to an overridden descriptor — a nested conversion at any recursion depth,
from any state whose table carries the entry — returns the override
verbatim with no structural work and no state change.  (v) The second
table lookup performed right after dispatch makes the nested caller
observe the override for the very descriptor whose conversion triggered
the installation, rather than the structurally-expanded string.
(vi)/(vii) End-to-end instances: converting `Doc [A: User, B: Team,
C: User]` with a hook that installs `UserRef` for `User` upon discovering
`Team` keeps the structural expansion in the earlier field `A` and uses
the override in the later reference `C`; and with a hook installing the
override for `User` itself, the outer `Wrap [A: User]` observes the
override immediately. -/
theorem C2_hook_override_visibility :
    (∀ (σ : Type) (conv : ConvFn σ) (fs1 fs2 : List (String × Ty)) (st : ConvState σ)
        (out : List (String × Decl)) (st' : ConvState σ),
        extractStructGo conv st (fs1 ++ fs2) = .ok (out, st') →
        ∃ ds1 st1 ds2, extractStructGo conv st fs1 = .ok (ds1, st1) ∧
          extractStructGo conv st1 fs2 = .ok (ds2, st') ∧ out = ds1 ++ ds2) ∧
    (∀ (σ : Type) (conv : ConvFn σ) (fconf : FuncConf) (ps1 ps2 : List Ty)
        (st : ConvState σ) (i : Nat) (finfo finfo' : FuncInfo) (st' : ConvState σ),
        buildParams conv fconf st i (ps1 ++ ps2) finfo = .ok (finfo', st') →
        ∃ finfo1 st1, buildParams conv fconf st i ps1 finfo = .ok (finfo1, st1) ∧
          buildParams conv fconf st1 (i + ps1.length) ps2 finfo1 = .ok (finfo', st')) ∧
    (∀ (σ : Type) (H : Hooks σ) (T : Ty) (ov : Decl),
        (∀ u d s, lookupA s.types T = some ov →
          lookupA (H.onConvert u d s).types T = some ov) →
        ∀ (fuel : Nat) (st : ConvState σ) (t : Ty) (r : Decl) (st' : ConvState σ),
          ConvertF H fuel st t = .ok (r, st') →
          lookupA st.types T = some ov → lookupA st'.types T = some ov) ∧
    (∀ (σ : Type) (H : Hooks σ) (fuel : Nat) (st : ConvState σ) (T : Ty) (ov : Decl),
        lookupA st.types T = some ov →
        convertGo (fun st2 v => ConvertF H fuel st2 v) st T = .ok (ov, st)) ∧
    (∀ (σ : Type) (H : Hooks σ) (fuel : Nat) (st : ConvState σ) (t : Ty) (r : Decl)
        (st' : ConvState σ),
        ConvertF H fuel st t = .ok (r, st') →
        convertGo (fun st2 v => ConvertF H fuel st2 v) st t =
          .ok ((lookupA st'.types t).getD r, st')) ∧
    (ConvertTop installOnTeamHooks (newConverterState ()) DocTy =
      .ok ("\x7b A: \x7b Name: string \x7d, B: \x7b Cap: \x7b Name: string \x7d \x7d, C: UserRef \x7d",
        { newConverterState () with
            types := insertA (newConverterState ()).types UserTy "UserRef" })) ∧
    (ConvertTop installOnUserHooks (newConverterState ()) WrapTy =
      .ok ("\x7b A: UserRef \x7d",
        { newConverterState () with
            types := insertA (newConverterState ()).types UserTy "UserRef" })) := by
  refine ⟨fun σ conv fs1 fs2 st out st' h => extractStructGo_split conv fs1 fs2 st out st' h,
    fun σ conv fconf ps1 ps2 st i finfo finfo' st' h =>
      buildParams_split conv fconf ps1 ps2 st i finfo finfo' st' h,
    ?_,
    fun σ H fuel st T ov h => convertGo_entry H fuel st T ov h,
    fun σ H fuel st t r st' h => convertGo_ok h,
    rfl, rfl⟩
  intro σ H T ov hH fuel st t r st' h hP
  exact ConvertF_keepsP (P := fun ts => lookupA ts T = some ov)
    (fun u d s hs => hH u d s hs) fuel st t r st' h hP

/-- C2 witness: (i) the decomposition at the concrete two-field split of
`[A: User] ++ [C: User]`; (iii) the `UserRef` entry survives converting
`Team` under the installing hook; (iv) with the entry present, a later
reference to `User` returns `UserRef` verbatim with the state unchanged;
(v) after the hook installs the override during the conversion of `User`
itself, the nested caller observes the post-hook table value. -/
theorem C2_hook_override_visibility_witness :
    (∃ ds1 st1 ds2,
      extractStructGo (fun st t => ConvertF (defaultHooks Unit) 3 st t)
          (newConverterState ()) [("A", UserTy)] = .ok (ds1, st1) ∧
        extractStructGo (fun st t => ConvertF (defaultHooks Unit) 3 st t)
          st1 [("C", UserTy)] = .ok (ds2, newConverterState ()) ∧
        ([("A", "\x7b Name: string \x7d"), ("C", "\x7b Name: string \x7d")] :
          List (String × Decl)) = ds1 ++ ds2) ∧
    lookupA ({ overriddenState with
        types := insertA overriddenState.types UserTy "UserRef" } : ConvState Unit).types
      UserTy = some "UserRef" ∧
    convertGo (fun st2 v => ConvertF installOnTeamHooks 3 st2 v)
        overriddenState UserTy = .ok ("UserRef", overriddenState) ∧
    convertGo (fun st2 v => ConvertF installOnUserHooks 3 st2 v)
        (newConverterState ()) UserTy =
      .ok ((lookupA ({ newConverterState () with
          types := insertA (newConverterState ()).types UserTy "UserRef" } :
            ConvState Unit).types UserTy).getD "\x7b Name: string \x7d",
        { newConverterState () with
            types := insertA (newConverterState ()).types UserTy "UserRef" }) := by
  refine ⟨?_, ?_, ?_, ?_⟩
  · exact C2_hook_override_visibility.1 Unit (fun st t => ConvertF (defaultHooks Unit) 3 st t)
      [("A", UserTy)] [("C", UserTy)] (newConverterState ())
      [("A", "\x7b Name: string \x7d"), ("C", "\x7b Name: string \x7d")]
      (newConverterState ()) rfl
  · exact C2_hook_override_visibility.2.2.1 Unit installOnTeamHooks UserTy "UserRef"
      (by
        intro u d s hs
        by_cases hu : u = TeamTy
        · simp only [installOnTeamHooks, if_pos hu]
          exact lookupA_insert_self s.types UserTy "UserRef"
        · simp only [installOnTeamHooks, if_neg hu]
          exact hs)
      5 overriddenState TeamTy "\x7b Cap: UserRef \x7d"
      { overriddenState with types := insertA overriddenState.types UserTy "UserRef" }
      rfl rfl
  · exact C2_hook_override_visibility.2.2.2.1 Unit installOnTeamHooks 3
      overriddenState UserTy "UserRef" rfl
  · exact C2_hook_override_visibility.2.2.2.2.1 Unit installOnUserHooks 3
      (newConverterState ()) UserTy "\x7b Name: string \x7d"
      { newConverterState () with
          types := insertA (newConverterState ()).types UserTy "UserRef" } rfl
